import Mathlib

/-!
Verification of the position-independent 64-bit arithmetic substrate
(cpp-pic): a shallow embedding of the UINT64 / INT64 classes from
src/include/runtime/primitives, of the memcpy primitive from
src/src/runtime/platform/allocator.cc, of the STACK_ARRAY_STORAGE
compile-time literal packing from src/include/runtime/platform/platform.h,
and a spec-level model of the DOUBLE (WideFloat) conversion to integer.

Machine words are modelled as natural numbers: a 32-bit word is a Nat
that every operation reduces modulo 2^32 exactly where the C++ code
performs UINT32 (wrap-around) arithmetic; the C idioms x & 0xFFFF,
x >> k and x << k on words are rendered as x % 2^16, x / 2^k and
x * 2^k (with the wrap-around modulus where the C type forces one),
and bitwise or is Nat.lor.
-/

/-! ### Generic helper lemmas about disjoint bitwise or -/

theorem lor_disjoint {n x y : Nat} (hx : 2 ^ n ∣ x) (hy : y < 2 ^ n) :
    x ||| y = x + y := by
  obtain ⟨a, rfl⟩ := hx
  rw [← Nat.mul_add_lt_is_or hy a]

/-! ### UINT64: the unsigned 64-bit class from uint64.h

The class stores a 64-bit value as two 32-bit words, field order as in
the source (low : bits 31..0, high : bits 63..32). -/

structure UINT64 where
  low : Nat
  high : Nat
deriving DecidableEq, Repr

namespace UINT64

/-- Well-formedness: both words are genuine 32-bit values. -/
def Wf (u : UINT64) : Prop := u.low < 2 ^ 32 ∧ u.high < 2 ^ 32

instance (u : UINT64) : Decidable u.Wf := by unfold Wf; infer_instance

/-- The 64-bit value represented by the word pair. -/
def toNat (u : UINT64) : Nat := u.high * 2 ^ 32 + u.low

/-- The constructor from a native unsigned long long:
low = val and 0xFFFFFFFF, high = (val >> 32) and 0xFFFFFFFF. -/
def ofNat64 (val : Nat) : UINT64 := ⟨val % 2 ^ 32, val / 2 ^ 32 % 2 ^ 32⟩

/-- UINT64 operator+ : add low words, carry = (newLow < low), add high
words plus carry. -/
def add (u other : UINT64) : UINT64 :=
  let newLow := (u.low + other.low) % 2 ^ 32
  let carry := if newLow < u.low then 1 else 0
  ⟨newLow, (u.high + other.high + carry) % 2 ^ 32⟩

/-- UINT64 operator- : subtract low words (32-bit wrap-around),
borrow = (low < other.low), subtract high words and borrow. -/
def sub (u other : UINT64) : UINT64 :=
  let newLow := (u.low + 2 ^ 32 - other.low) % 2 ^ 32
  let borrow := if u.low < other.low then 1 else 0
  ⟨newLow, (u.high + 2 ^ 32 - other.high + 2 ^ 32 - borrow) % 2 ^ 32⟩

/-- UINT64 operator* : split each 32-bit limb into 16-bit halves, form
the ten cross partial products that land below bit 64, accumulate with
manual carry propagation. Each 16x16 product and each partial sum is
below 2^32, so the UINT32 arithmetic of the source never wraps here. -/
def mul (u other : UINT64) : UINT64 :=
  let a0 := u.low % 2 ^ 16
  let a1 := u.low / 2 ^ 16
  let a2 := u.high % 2 ^ 16
  let a3 := u.high / 2 ^ 16
  let b0 := other.low % 2 ^ 16
  let b1 := other.low / 2 ^ 16
  let b2 := other.high % 2 ^ 16
  let b3 := other.high / 2 ^ 16
  let p0 := a0 * b0
  let p1 := a1 * b0
  let p2 := a0 * b1
  let p3 := a2 * b0
  let p4 := a1 * b1
  let p5 := a0 * b2
  let p6 := a3 * b0
  let p7 := a2 * b1
  let p8 := a1 * b2
  let p9 := a0 * b3
  let r0 := p0 % 2 ^ 16
  let carry0 := p0 / 2 ^ 16
  let sum1 := carry0 + p1 % 2 ^ 16 + p2 % 2 ^ 16
  let r1 := sum1 % 2 ^ 16
  let carry1 := sum1 / 2 ^ 16
  let sum2 := carry1 + p1 / 2 ^ 16 + p2 / 2 ^ 16 + p3 % 2 ^ 16 + p4 % 2 ^ 16 + p5 % 2 ^ 16
  let r2 := sum2 % 2 ^ 16
  let carry2 := sum2 / 2 ^ 16
  let sum3 := carry2 + p3 / 2 ^ 16 + p4 / 2 ^ 16 + p5 / 2 ^ 16
      + p6 % 2 ^ 16 + p7 % 2 ^ 16 + p8 % 2 ^ 16 + p9 % 2 ^ 16
  let r3 := sum3 % 2 ^ 16
  ⟨r0 ||| r1 * 2 ^ 16, r2 ||| r3 * 2 ^ 16⟩

/-- UINT64 operator>= (from the shared comparison macro): compare high
words first, then low words. -/
def ge (u other : UINT64) : Bool :=
  if u.high ≠ other.high then decide (u.high > other.high)
  else decide (u.low ≥ other.low)

/-- UINT64 operator< (shared comparison macro). -/
def lt (u other : UINT64) : Bool :=
  if u.high ≠ other.high then decide (u.high < other.high)
  else decide (u.low < other.low)

/-- UINT64 operator<= (shared comparison macro). -/
def le (u other : UINT64) : Bool :=
  if u.high ≠ other.high then decide (u.high < other.high)
  else decide (u.low ≤ other.low)

/-- UINT64 operator> (shared comparison macro). -/
def gt (u other : UINT64) : Bool :=
  if u.high ≠ other.high then decide (u.high > other.high)
  else decide (u.low > other.low)

/-- UINT64 operator== (shared comparison macro). -/
def beq (u other : UINT64) : Bool :=
  decide (u.low = other.low) && decide (u.high = other.high)

/-- UINT64 operator!= (shared comparison macro). -/
def bne (u other : UINT64) : Bool := ! beq u other

/-- One iteration of the restoring long-division loop of operator/ at
loop index i: shift the remainder left one bit, inject bit i of the
dividend, and if the remainder now reaches the divisor subtract it and
record quotient bit i. -/
def divStep (a b : UINT64) (i : Nat) (q r : UINT64) : UINT64 × UINT64 :=
  let r1 : UINT64 := ⟨r.low * 2 % 2 ^ 32, r.high * 2 % 2 ^ 32 ||| r.low / 2 ^ 31⟩
  let r2 : UINT64 :=
    if 32 ≤ i then
      if a.high / 2 ^ (i - 32) % 2 = 1 then ⟨r1.low ||| 1, r1.high⟩ else r1
    else
      if a.low / 2 ^ i % 2 = 1 then ⟨r1.low ||| 1, r1.high⟩ else r1
  if ge r2 b then
    (if 32 ≤ i then ⟨q.low, q.high ||| 2 ^ (i - 32)⟩ else ⟨q.low ||| 2 ^ i, q.high⟩,
     sub r2 b)
  else (q, r2)

/-- The division loop: n is the number of bit positions still to be
processed, so fuel n+1 processes bit n next; starting at fuel 64 runs
i = 63 down to i = 0 exactly as the source loop does. -/
def divLoop (a b : UINT64) : Nat → UINT64 × UINT64 → UINT64 × UINT64
  | 0, qr => qr
  | n + 1, qr => divLoop a b n (divStep a b n qr.1 qr.2)

/-- UINT64 operator/ : zero divisor returns zero, otherwise restoring
binary long division from bit 63 down to bit 0. -/
def div (u other : UINT64) : UINT64 :=
  if other.high = 0 ∧ other.low = 0 then ⟨0, 0⟩
  else (divLoop u other 64 (⟨0, 0⟩, ⟨0, 0⟩)).1

/-- One iteration of the remainder-only loop of operator% : identical
to the division step except that no quotient bit is recorded. -/
def modStep (a b : UINT64) (i : Nat) (r : UINT64) : UINT64 :=
  let r1 : UINT64 := ⟨r.low * 2 % 2 ^ 32, r.high * 2 % 2 ^ 32 ||| r.low / 2 ^ 31⟩
  let r2 : UINT64 :=
    if 32 ≤ i then
      if a.high / 2 ^ (i - 32) % 2 = 1 then ⟨r1.low ||| 1, r1.high⟩ else r1
    else
      if a.low / 2 ^ i % 2 = 1 then ⟨r1.low ||| 1, r1.high⟩ else r1
  if ge r2 b then sub r2 b else r2

/-- The loop of operator%, with the same fuel convention as divLoop. -/
def modLoop (a b : UINT64) : Nat → UINT64 → UINT64
  | 0, r => r
  | n + 1, r => modLoop a b n (modStep a b n r)

/-- UINT64 operator% : zero divisor returns zero, otherwise the
remainder computed by the restoring-division loop. -/
def mod (u other : UINT64) : UINT64 :=
  if other.high = 0 ∧ other.low = 0 then ⟨0, 0⟩
  else modLoop u other 64 ⟨0, 0⟩

/-- UINT64 operator<< ; the shift count is a C int, hence an integer. -/
def shl (u : UINT64) (shift : Int) : UINT64 :=
  if shift < 0 ∨ 64 ≤ shift then ⟨0, 0⟩
  else if shift = 0 then u
  else if 32 ≤ shift then ⟨0, u.low * 2 ^ (shift.toNat - 32) % 2 ^ 32⟩
  else
    ⟨u.low * 2 ^ shift.toNat % 2 ^ 32,
     u.high * 2 ^ shift.toNat % 2 ^ 32 ||| u.low / 2 ^ (32 - shift.toNat)⟩

/-- UINT64 operator>> (logical). -/
def shr (u : UINT64) (shift : Int) : UINT64 :=
  if shift < 0 ∨ 64 ≤ shift then ⟨0, 0⟩
  else if shift = 0 then u
  else if 32 ≤ shift then ⟨u.high / 2 ^ (shift.toNat - 32), 0⟩
  else
    ⟨u.low / 2 ^ shift.toNat ||| u.high * 2 ^ (32 - shift.toNat) % 2 ^ 32,
     u.high / 2 ^ shift.toNat⟩

/-- UINT64 operator& (shared bitwise macro). -/
def land (u other : UINT64) : UINT64 := ⟨u.low &&& other.low, u.high &&& other.high⟩

/-- UINT64 operator| (shared bitwise macro). -/
def lor (u other : UINT64) : UINT64 := ⟨u.low ||| other.low, u.high ||| other.high⟩

/-- UINT64 operator^ (shared bitwise macro). -/
def lxor (u other : UINT64) : UINT64 := ⟨u.low ^^^ other.low, u.high ^^^ other.high⟩

/-- UINT64 operator~ (shared bitwise macro); 32-bit complement of each
word. -/
def lnot (u : UINT64) : UINT64 := ⟨2 ^ 32 - 1 - u.low, 2 ^ 32 - 1 - u.high⟩

/-- UINT64 prefix operator++ (shared macro): increment low, and if it
wrapped to zero increment high. -/
def inc (u : UINT64) : UINT64 :=
  let l := (u.low + 1) % 2 ^ 32
  if l = 0 then ⟨l, (u.high + 1) % 2 ^ 32⟩ else ⟨l, u.high⟩

/-- UINT64 prefix operator-- (shared macro): if low was zero before the
decrement, also decrement high. -/
def dec (u : UINT64) : UINT64 :=
  if u.low = 0 then ⟨(u.low + 2 ^ 32 - 1) % 2 ^ 32, (u.high + 2 ^ 32 - 1) % 2 ^ 32⟩
  else ⟨(u.low + 2 ^ 32 - 1) % 2 ^ 32, u.high⟩

end UINT64

/-! ### INT64: the signed 64-bit class from int64.h

The fields hold the same 32-bit patterns as the storage does: low is
the UINT32 low word and high is the two of-complement bit pattern of the
INT32 high word. Signed readings of a word go through toInt32. -/

/-- The signed value of a 32-bit two of-complement pattern. -/
def toInt32 (x : Nat) : Int := if x < 2 ^ 31 then (x : Int) else (x : Int) - 2 ^ 32

/-- Arithmetic (sign-extending) right shift of a 32-bit two
of-complement pattern by s < 32 bits, the effect of the C >> on a
negative INT32: the vacated top s bits are filled with the sign bit. -/
def sar32 (x : Nat) (s : Nat) : Nat :=
  x / 2 ^ s + (if 2 ^ 31 ≤ x then 2 ^ 32 - 2 ^ (32 - s) else 0)

structure INT64 where
  low : Nat
  high : Nat
deriving DecidableEq, Repr

namespace INT64

/-- Well-formedness: both stored patterns are genuine 32-bit words. -/
def Wf (s : INT64) : Prop := s.low < 2 ^ 32 ∧ s.high < 2 ^ 32

instance (s : INT64) : Decidable s.Wf := by unfold Wf; infer_instance

/-- The 64-bit bit pattern held by the pair (conversion operator
UINT64, which reinterprets the words unchanged). -/
def toUINT64 (s : INT64) : UINT64 := ⟨s.low, s.high⟩

/-- The 64-bit pattern as a natural number. -/
def toNat64 (s : INT64) : Nat := s.high * 2 ^ 32 + s.low

/-- The signed value (conversion operator signed long long):
sign-extended high word times 2^32 plus the low word. -/
def toInt (s : INT64) : Int := toInt32 s.high * 2 ^ 32 + (s.low : Int)

/-- The predicate the source writes as high < 0. -/
def isNeg (s : INT64) : Prop := 2 ^ 31 ≤ s.high

instance (s : INT64) : Decidable s.isNeg := by unfold isNeg; infer_instance

/-- INT64 operator+ : limb-wise with the same carry formula as the
unsigned variant; INT32 addition wraps modulo 2^32 on the pattern. -/
def add (s other : INT64) : INT64 :=
  let newLow := (s.low + other.low) % 2 ^ 32
  let carry := if newLow < s.low then 1 else 0
  ⟨newLow, (s.high + other.high + carry) % 2 ^ 32⟩

/-- INT64 operator- (binary). -/
def sub (s other : INT64) : INT64 :=
  let newLow := (s.low + 2 ^ 32 - other.low) % 2 ^ 32
  let borrow := if s.low < other.low then 1 else 0
  ⟨newLow, (s.high + 2 ^ 32 - other.high + 2 ^ 32 - borrow) % 2 ^ 32⟩

/-- INT64 unary operator- : INT64(0, 0) - this. -/
def neg (s : INT64) : INT64 := sub ⟨0, 0⟩ s

/-- INT64 operator* : convert both operands to UINT64, multiply with
the unsigned core, reinterpret the result words. -/
def mul (s other : INT64) : INT64 :=
  let result := UINT64.mul (toUINT64 s) (toUINT64 other)
  ⟨result.low, result.high⟩

/-- INT64 operator/ : zero divisor returns zero; otherwise take
absolute values, divide with the unsigned core, and negate the result
when exactly one operand was negative. -/
def div (s other : INT64) : INT64 :=
  if other.high = 0 ∧ other.low = 0 then ⟨0, 0⟩
  else
    let negResult := decide s.isNeg != decide other.isNeg
    let absThis := if s.isNeg then neg s else s
    let absOther := if other.isNeg then neg other else other
    let quotient := UINT64.div (toUINT64 absThis) (toUINT64 absOther)
    let result : INT64 := ⟨quotient.low, quotient.high⟩
    if negResult then neg result else result

/-- INT64 operator% : zero divisor returns zero; otherwise
this - (this / other) * other. -/
def mod (s other : INT64) : INT64 :=
  if other.high = 0 ∧ other.low = 0 then ⟨0, 0⟩
  else sub s (mul (div s other) other)

/-- INT64 operator<< : same word formulas as the unsigned variant. -/
def shl (s : INT64) (shift : Int) : INT64 :=
  if shift < 0 ∨ 64 ≤ shift then ⟨0, 0⟩
  else if shift = 0 then s
  else if 32 ≤ shift then ⟨0, s.low * 2 ^ (shift.toNat - 32) % 2 ^ 32⟩
  else
    ⟨s.low * 2 ^ shift.toNat % 2 ^ 32,
     s.high * 2 ^ shift.toNat % 2 ^ 32 ||| s.low / 2 ^ (32 - shift.toNat)⟩

/-- INT64 operator>> (arithmetic): a negative shift returns the value
unchanged; a shift of 64 or more returns the sign fill; otherwise the
high word is shifted arithmetically and the vacated low bits are sign
filled. -/
def shr (s : INT64) (shift : Int) : INT64 :=
  if shift < 0 then s
  else if 64 ≤ shift then
    if s.isNeg then ⟨2 ^ 32 - 1, 2 ^ 32 - 1⟩ else ⟨0, 0⟩
  else if shift = 0 then s
  else if 32 ≤ shift then
    ⟨sar32 s.high (shift.toNat - 32), if s.isNeg then 2 ^ 32 - 1 else 0⟩
  else
    ⟨s.low / 2 ^ shift.toNat ||| s.high * 2 ^ (32 - shift.toNat) % 2 ^ 32,
     sar32 s.high shift.toNat⟩

/-- INT64 operator& (shared bitwise macro). -/
def land (s other : INT64) : INT64 := ⟨s.low &&& other.low, s.high &&& other.high⟩

/-- INT64 operator| (shared bitwise macro). -/
def lor (s other : INT64) : INT64 := ⟨s.low ||| other.low, s.high ||| other.high⟩

/-- INT64 operator^ (shared bitwise macro). -/
def lxor (s other : INT64) : INT64 := ⟨s.low ^^^ other.low, s.high ^^^ other.high⟩

/-- INT64 operator~ (shared bitwise macro). -/
def lnot (s : INT64) : INT64 := ⟨2 ^ 32 - 1 - s.low, 2 ^ 32 - 1 - s.high⟩

/-- INT64 prefix operator++ (shared macro). -/
def inc (s : INT64) : INT64 :=
  let l := (s.low + 1) % 2 ^ 32
  if l = 0 then ⟨l, (s.high + 1) % 2 ^ 32⟩ else ⟨l, s.high⟩

/-- INT64 prefix operator-- (shared macro). -/
def dec (s : INT64) : INT64 :=
  if s.low = 0 then ⟨(s.low + 2 ^ 32 - 1) % 2 ^ 32, (s.high + 2 ^ 32 - 1) % 2 ^ 32⟩
  else ⟨(s.low + 2 ^ 32 - 1) % 2 ^ 32, s.high⟩

/-- INT64 operator< (shared comparison macro; the high words compare
as signed INT32). -/
def lt (s other : INT64) : Bool :=
  if s.high ≠ other.high then decide (toInt32 s.high < toInt32 other.high)
  else decide (s.low < other.low)

/-- INT64 operator== (shared comparison macro). -/
def beq (s other : INT64) : Bool :=
  decide (s.low = other.low) && decide (s.high = other.high)

/-- INT64 operator!= (shared comparison macro). -/
def bne (s other : INT64) : Bool := ! beq s other

end INT64

/-! ### Basic facts about the UINT64 representation -/

namespace UINT64

theorem wf_ofNat64 (n : Nat) : (ofNat64 n).Wf := by
  unfold ofNat64 Wf; constructor <;> simp [Nat.mod_lt]

theorem ofNat64_eq_of_lt {n : Nat} (h : n < 2 ^ 64) :
    ofNat64 n = ⟨n % 2 ^ 32, n / 2 ^ 32⟩ := by
  unfold ofNat64
  congr 1
  omega

theorem toNat_ofNat64 {n : Nat} (h : n < 2 ^ 64) : toNat (ofNat64 n) = n := by
  unfold toNat ofNat64; simp only []; omega

theorem ofNat64_toNat {u : UINT64} (h : u.Wf) : ofNat64 (toNat u) = u := by
  obtain ⟨h1, h2⟩ := h
  unfold toNat ofNat64
  congr 1 <;> omega

theorem toNat_lt {u : UINT64} (h : u.Wf) : toNat u < 2 ^ 64 := by
  obtain ⟨h1, h2⟩ := h; unfold toNat; omega

theorem toNat_inj {u v : UINT64} (hu : u.Wf) (hv : v.Wf) (h : toNat u = toNat v) :
    u = v := by
  rw [← ofNat64_toNat hu, ← ofNat64_toNat hv, h]

/-- The comparison operator>= agrees with the order on represented
values. -/
theorem ge_iff {u v : UINT64} (hu : u.Wf) (hv : v.Wf) :
    ge u v = true ↔ toNat v ≤ toNat u := by
  obtain ⟨hu1, hu2⟩ := hu
  obtain ⟨hv1, hv2⟩ := hv
  unfold ge toNat
  split_ifs with h
  · simp only [decide_eq_true_eq]; omega
  · simp only [decide_eq_true_eq]; omega

/-- Word-level subtraction computes the difference of represented
values when no 64-bit borrow occurs. -/
theorem sub_ofNat64 {x y : Nat} (hx : x < 2 ^ 64) (hy : y < 2 ^ 64) (hle : y ≤ x) :
    sub (ofNat64 x) (ofNat64 y) = ofNat64 (x - y) := by
  rw [ofNat64_eq_of_lt hx, ofNat64_eq_of_lt hy, ofNat64_eq_of_lt (by omega)]
  unfold sub
  simp only []
  congr 1
  · omega
  · split_ifs <;> omega

theorem add_toNat {u v : UINT64} (hu : u.Wf) (hv : v.Wf) :
    toNat (add u v) = (toNat u + toNat v) % 2 ^ 64 := by
  obtain ⟨hu1, hu2⟩ := hu
  obtain ⟨hv1, hv2⟩ := hv
  unfold add toNat
  simp only []
  split_ifs <;> omega

theorem sub_toNat {u v : UINT64} (hu : u.Wf) (hv : v.Wf) :
    toNat (sub u v) = (toNat u + 2 ^ 64 - toNat v) % 2 ^ 64 := by
  obtain ⟨hu1, hu2⟩ := hu
  obtain ⟨hv1, hv2⟩ := hv
  unfold sub toNat
  simp only []
  split_ifs <;> omega

end UINT64

/-! ### Claim C2: division and modulo by zero -/

/-- C2: dividing any 64-bit value by zero, or reducing it modulo zero,
returns zero in both the unsigned (UINT64) and the signed (INT64)
variant; both operations are total functions that return normally. -/
theorem claim2_div_mod_by_zero (a : UINT64) (s : INT64) :
    UINT64.div a ⟨0, 0⟩ = ⟨0, 0⟩ ∧ UINT64.mod a ⟨0, 0⟩ = ⟨0, 0⟩ ∧
    INT64.div s ⟨0, 0⟩ = ⟨0, 0⟩ ∧ INT64.mod s ⟨0, 0⟩ = ⟨0, 0⟩ := by
  refine ⟨?_, ?_, ?_, ?_⟩ <;> simp [UINT64.div, UINT64.mod, INT64.div, INT64.mod]

/-! ### Claim C10: negative shift amounts -/

/-- C10: a negative shift amount sends both unsigned shifts to zero,
sends the signed left shift to zero, and leaves the operand of the
signed right shift unchanged. -/
theorem claim10_negative_shift (u : UINT64) (s : INT64) (sh : Int) (h : sh < 0) :
    UINT64.shl u sh = ⟨0, 0⟩ ∧ UINT64.shr u sh = ⟨0, 0⟩ ∧
    INT64.shl s sh = ⟨0, 0⟩ ∧ INT64.shr s sh = s := by
  unfold UINT64.shl UINT64.shr INT64.shl INT64.shr
  rw [if_pos (Or.inl h), if_pos (Or.inl h), if_pos (Or.inl h), if_pos h]
  exact ⟨rfl, rfl, rfl, rfl⟩

theorem claim10_negative_shift_witness :
    (-3 : Int) < 0 ∧
    (UINT64.shl ⟨5, 6⟩ (-3) = ⟨0, 0⟩ ∧ UINT64.shr ⟨5, 6⟩ (-3) = ⟨0, 0⟩ ∧
     INT64.shl ⟨7, 8⟩ (-3) = ⟨0, 0⟩ ∧ INT64.shr ⟨7, 8⟩ (-3) = ⟨7, 8⟩) :=
  ⟨by decide, claim10_negative_shift ⟨5, 6⟩ ⟨7, 8⟩ (-3) (by decide)⟩

/-! ### Claim C3: operators shared between the signed and unsigned
variants

The addition, subtraction, bitwise, left-shift, increment, decrement
and equality operators act identically on the stored bit patterns in
both variants. The ordered comparisons do not: the shared macro
compares the high words with their own word type, so INT64 reads the
high word as signed where UINT64 reads it as unsigned, and the two
variants disagree on any pair whose high words differ in sign bit. -/

/-- C3 fails as stated for the ordered comparison operators: on the bit
patterns 0xFFFFFFFF00000000 and 0, signed less-than is true while
unsigned less-than is false. -/
theorem claim3_counterexample :
    ¬ (INT64.lt ⟨0, 4294967295⟩ ⟨0, 0⟩ =
       UINT64.lt (INT64.toUINT64 ⟨0, 4294967295⟩) (INT64.toUINT64 ⟨0, 0⟩)) := by
  decide

/-- C3 (amended): for every pair of 64-bit bit patterns, the +, -,
bitwise and, or, xor, not, left shift, increment, decrement, equality
and inequality operators of INT64 and UINT64 produce identical result
bit patterns; the ordered comparisons <, <=, >, >= are excluded, since
they read the high word as signed in one variant and unsigned in the
other. -/
theorem claim3_shared_operators (s t : INT64) (sh : Int) :
    INT64.toUINT64 (INT64.add s t) = UINT64.add s.toUINT64 t.toUINT64 ∧
    INT64.toUINT64 (INT64.sub s t) = UINT64.sub s.toUINT64 t.toUINT64 ∧
    INT64.toUINT64 (INT64.land s t) = UINT64.land s.toUINT64 t.toUINT64 ∧
    INT64.toUINT64 (INT64.lor s t) = UINT64.lor s.toUINT64 t.toUINT64 ∧
    INT64.toUINT64 (INT64.lxor s t) = UINT64.lxor s.toUINT64 t.toUINT64 ∧
    INT64.toUINT64 (INT64.lnot s) = UINT64.lnot s.toUINT64 ∧
    INT64.toUINT64 (INT64.shl s sh) = UINT64.shl s.toUINT64 sh ∧
    INT64.toUINT64 (INT64.inc s) = UINT64.inc s.toUINT64 ∧
    INT64.toUINT64 (INT64.dec s) = UINT64.dec s.toUINT64 ∧
    INT64.beq s t = UINT64.beq s.toUINT64 t.toUINT64 ∧
    INT64.bne s t = UINT64.bne s.toUINT64 t.toUINT64 := by
  refine ⟨rfl, rfl, rfl, rfl, rfl, rfl, ?_, ?_, ?_, rfl, rfl⟩
  · unfold INT64.shl UINT64.shl INT64.toUINT64
    split_ifs <;> rfl
  · unfold INT64.inc UINT64.inc INT64.toUINT64
    simp only []
    split_ifs <;> rfl
  · unfold INT64.dec UINT64.dec INT64.toUINT64
    split_ifs <;> rfl

theorem mul_toNat {u v : UINT64} (hu : u.Wf) (hv : v.Wf) :
    UINT64.toNat (UINT64.mul u v) = UINT64.toNat u * UINT64.toNat v % 2 ^ 64 := by
  obtain ⟨hu1, hu2⟩ := hu
  obtain ⟨hv1, hv2⟩ := hv
  obtain ⟨L1, H1⟩ := u
  obtain ⟨L2, H2⟩ := v
  simp only [UINT64.mul, UINT64.toNat] at *
  have key : ∀ a0 a1 a2 a3 b0 b1 b2 b3 : ℕ,
      (a0 + 2 ^ 16 * a1 + 2 ^ 32 * a2 + 2 ^ 48 * a3) *
        (b0 + 2 ^ 16 * b1 + 2 ^ 32 * b2 + 2 ^ 48 * b3)
      = (a0 * b0 + (a1 * b0 + a0 * b1) * 2 ^ 16
          + (a2 * b0 + a1 * b1 + a0 * b2) * 2 ^ 32
          + (a3 * b0 + a2 * b1 + a1 * b2 + a0 * b3) * 2 ^ 48)
        + 2 ^ 64 * (a1 * b3 + a2 * b2 + a3 * b1 + (a2 * b3 + a3 * b2) * 2 ^ 16
          + a3 * b3 * 2 ^ 32) := by
    intros; ring
  rw [show H1 * 2 ^ 32 + L1
        = L1 % 2 ^ 16 + 2 ^ 16 * (L1 / 2 ^ 16) + 2 ^ 32 * (H1 % 2 ^ 16)
          + 2 ^ 48 * (H1 / 2 ^ 16) by omega,
      show H2 * 2 ^ 32 + L2
        = L2 % 2 ^ 16 + 2 ^ 16 * (L2 / 2 ^ 16) + 2 ^ 32 * (H2 % 2 ^ 16)
          + 2 ^ 48 * (H2 / 2 ^ 16) by omega,
      key, Nat.add_mul_mod_self_left]
  have lor16 : ∀ x y : ℕ, (x % 2 ^ 16 ||| y % 2 ^ 16 * 2 ^ 16)
      = x % 2 ^ 16 + y % 2 ^ 16 * 2 ^ 16 := by
    intro x y
    rw [Nat.lor_comm, lor_disjoint ⟨y % 2 ^ 16, by ring⟩ (Nat.mod_lt _ (by norm_num)),
        Nat.add_comm]
  rw [lor16, lor16]
  have ba0 : L1 % 2 ^ 16 < 2 ^ 16 := by omega
  have ba1 : L1 / 2 ^ 16 < 2 ^ 16 := by omega
  have ba2 : H1 % 2 ^ 16 < 2 ^ 16 := by omega
  have ba3 : H1 / 2 ^ 16 < 2 ^ 16 := by omega
  have bb0 : L2 % 2 ^ 16 < 2 ^ 16 := by omega
  have bb1 : L2 / 2 ^ 16 < 2 ^ 16 := by omega
  have bb2 : H2 % 2 ^ 16 < 2 ^ 16 := by omega
  have bb3 : H2 / 2 ^ 16 < 2 ^ 16 := by omega
  generalize L1 % 2 ^ 16 = a0 at ba0 ⊢
  generalize L1 / 2 ^ 16 = a1 at ba1 ⊢
  generalize H1 % 2 ^ 16 = a2 at ba2 ⊢
  generalize H1 / 2 ^ 16 = a3 at ba3 ⊢
  generalize L2 % 2 ^ 16 = b0 at bb0 ⊢
  generalize L2 / 2 ^ 16 = b1 at bb1 ⊢
  generalize H2 % 2 ^ 16 = b2 at bb2 ⊢
  generalize H2 / 2 ^ 16 = b3 at bb3 ⊢
  have bmul : ∀ x y : ℕ, x < 2 ^ 16 → y < 2 ^ 16 → x * y < 2 ^ 32 := by
    intro x y hx hy
    calc x * y ≤ x * 2 ^ 16 := Nat.mul_le_mul_left x (Nat.le_of_lt hy)
    _ < 2 ^ 32 := by omega
  have bp0 := bmul _ _ ba0 bb0
  have bp1 := bmul _ _ ba1 bb0
  have bp2 := bmul _ _ ba0 bb1
  have bp3 := bmul _ _ ba2 bb0
  have bp4 := bmul _ _ ba1 bb1
  have bp5 := bmul _ _ ba0 bb2
  have bp6 := bmul _ _ ba3 bb0
  have bp7 := bmul _ _ ba2 bb1
  have bp8 := bmul _ _ ba1 bb2
  have bp9 := bmul _ _ ba0 bb3
  generalize a0 * b0 = p0 at bp0 ⊢
  generalize a1 * b0 = p1 at bp1 ⊢
  generalize a0 * b1 = p2 at bp2 ⊢
  generalize a2 * b0 = p3 at bp3 ⊢
  generalize a1 * b1 = p4 at bp4 ⊢
  generalize a0 * b2 = p5 at bp5 ⊢
  generalize a3 * b0 = p6 at bp6 ⊢
  generalize a2 * b1 = p7 at bp7 ⊢
  generalize a1 * b2 = p8 at bp8 ⊢
  generalize a0 * b3 = p9 at bp9 ⊢
  omega

/-! ### Claim C5: multiplication matches native semantics modulo 2^64 -/

/-- C5: for every pair of 64-bit unsigned values, the 16-bit
partial-product multiplication of UINT64 operator* returns the native
product reduced modulo 2^64. -/
theorem claim5_mul_correct (a b : UINT64) (ha : a.Wf) (hb : b.Wf) :
    UINT64.toNat (UINT64.mul a b) = UINT64.toNat a * UINT64.toNat b % 2 ^ 64 :=
  mul_toNat ha hb

theorem claim5_mul_correct_witness :
    (⟨305419896, 2596069104⟩ : UINT64).Wf ∧ (⟨4275878552, 2427178379⟩ : UINT64).Wf ∧
    UINT64.toNat (UINT64.mul ⟨305419896, 2596069104⟩ ⟨4275878552, 2427178379⟩)
      = UINT64.toNat ⟨305419896, 2596069104⟩ * UINT64.toNat ⟨4275878552, 2427178379⟩ % 2 ^ 64 :=
  ⟨by decide, by decide,
   claim5_mul_correct ⟨305419896, 2596069104⟩ ⟨4275878552, 2427178379⟩ (by decide) (by decide)⟩

namespace UINT64

theorem wf_shl {u : UINT64} (hu : u.Wf) (sh : Int) : (shl u sh).Wf := by
  obtain ⟨h1, h2⟩ := hu
  unfold shl Wf
  split_ifs
  · exact ⟨by norm_num, by norm_num⟩
  · exact ⟨h1, h2⟩
  · exact ⟨by norm_num, Nat.mod_lt _ (by norm_num)⟩
  · refine ⟨Nat.mod_lt _ (by norm_num), ?_⟩
    exact Nat.or_lt_two_pow (Nat.mod_lt _ (by norm_num))
      (lt_of_le_of_lt (Nat.div_le_self _ _) h1)

theorem shl_toNat {u : UINT64} (hu : u.Wf) (s : Nat) (hs : s < 64) :
    toNat (shl u (s : Int)) = toNat u * 2 ^ s % 2 ^ 64 := by
  obtain ⟨hu1, hu2⟩ := hu
  obtain ⟨L, H⟩ := u
  change L < 2 ^ 32 at hu1
  change H < 2 ^ 32 at hu2
  have ht : (s : Int).toNat = s := by omega
  unfold shl toNat
  rw [if_neg (by omega : ¬((s : Int) < 0 ∨ 64 ≤ (s : Int)))]
  rcases Nat.eq_zero_or_pos s with hz | hpos
  · subst hz
    rw [if_pos (by norm_num)]
    dsimp only
    omega
  rw [if_neg (by omega : ¬((s : Int) = 0))]
  by_cases h32 : 32 ≤ s
  · rw [if_pos (by omega : (32 : Int) ≤ (s : Int))]
    dsimp only
    rw [ht]
    have hsplit : (2 : ℕ) ^ s = 2 ^ (s - 32) * 2 ^ 32 := by
      rw [← pow_add]; congr 1; omega
    have hexp : (H * 2 ^ 32 + L) * 2 ^ s
        = 2 ^ 64 * (H * 2 ^ (s - 32)) + L * 2 ^ (s - 32) * 2 ^ 32 := by
      rw [hsplit]; ring
    rw [hexp, Nat.mul_add_mod,
        show (2 : ℕ) ^ 64 = 2 ^ 32 * 2 ^ 32 by norm_num,
        Nat.mul_mod_mul_right]
    omega
  · rw [if_neg (by omega : ¬((32 : Int) ≤ (s : Int)))]
    dsimp only
    rw [ht]
    have hQP : (2 : ℕ) ^ (32 - s) * 2 ^ s = 2 ^ 32 := by
      rw [← pow_add]; congr 1; omega
    have h2s : (2 : ℕ) ^ s ∣ 2 ^ 32 := pow_dvd_pow 2 (by omega)
    have hdvd : (2 : ℕ) ^ s ∣ H * 2 ^ s % 2 ^ 32 :=
      (Nat.dvd_mod_iff h2s).mpr ⟨H, mul_comm _ _⟩
    have hlt : L / 2 ^ (32 - s) < 2 ^ s := by
      apply Nat.div_lt_of_lt_mul
      rw [hQP]; exact hu1
    rw [lor_disjoint hdvd hlt]
    have hmm : L * 2 ^ s % 2 ^ 32 = L % 2 ^ (32 - s) * 2 ^ s := by
      rw [← hQP, Nat.mul_mod_mul_right]
    have hdm := Nat.div_add_mod L (2 ^ (32 - s))
    have hRHS : (H * 2 ^ 32 + L) * 2 ^ s
        = (H * 2 ^ s + L / 2 ^ (32 - s)) * 2 ^ 32 + L % 2 ^ (32 - s) * 2 ^ s := by
      calc (H * 2 ^ 32 + L) * 2 ^ s
          = (H * 2 ^ 32 + (2 ^ (32 - s) * (L / 2 ^ (32 - s)) + L % 2 ^ (32 - s))) * 2 ^ s := by
            rw [hdm]
        _ = H * 2 ^ s * 2 ^ 32 + L / 2 ^ (32 - s) * (2 ^ (32 - s) * 2 ^ s)
            + L % 2 ^ (32 - s) * 2 ^ s := by ring
        _ = _ := by rw [hQP]; ring
    have hA32 : H * 2 ^ s % 2 ^ 32 + L / 2 ^ (32 - s) < 2 ^ 32 := by
      obtain ⟨m, hm⟩ := hdvd
      have hmlt : m < 2 ^ (32 - s) := by
        have hx : (2 : ℕ) ^ s * m < 2 ^ s * 2 ^ (32 - s) := by
          rw [mul_comm ((2 : ℕ) ^ s) (2 ^ (32 - s)), hQP, ← hm]
          exact Nat.mod_lt _ (by norm_num)
        exact Nat.lt_of_mul_lt_mul_left hx
      have hy : (2 : ℕ) ^ s * (m + 1) ≤ 2 ^ s * 2 ^ (32 - s) :=
        Nat.mul_le_mul_left _ (Nat.succ_le_of_lt hmlt)
      rw [mul_comm ((2 : ℕ) ^ s) (2 ^ (32 - s)), hQP] at hy
      have hy2 : H * 2 ^ s % 2 ^ 32 + 2 ^ s ≤ 2 ^ 32 := by
        rw [hm, ← Nat.mul_succ]; exact hy
      exact lt_of_lt_of_le (Nat.add_lt_add_left hlt _) hy2
    have hD : L % 2 ^ (32 - s) * 2 ^ s < 2 ^ 32 := by
      rw [← hQP]
      exact (Nat.mul_lt_mul_right (Nat.two_pow_pos s)).mpr (Nat.mod_lt _ (by positivity))
    rw [hRHS, hmm]
    set A := H * 2 ^ s with hA
    set c := L / 2 ^ (32 - s) with hc
    set D := L % 2 ^ (32 - s) * 2 ^ s with hDv
    clear_value A c D
    clear hA hc hDv hQP h2s hdvd hlt hmm hdm hRHS ht hpos h32 hu1 hu2 hs
    omega

theorem shr_toNat {u : UINT64} (hu : u.Wf) (s : Nat) (hs : s < 64) :
    toNat (shr u (s : Int)) = toNat u / 2 ^ s := by
  obtain ⟨hu1, hu2⟩ := hu
  obtain ⟨L, H⟩ := u
  change L < 2 ^ 32 at hu1
  change H < 2 ^ 32 at hu2
  have ht : (s : Int).toNat = s := by omega
  unfold shr toNat
  rw [if_neg (by omega : ¬((s : Int) < 0 ∨ 64 ≤ (s : Int)))]
  rcases Nat.eq_zero_or_pos s with hz | hpos
  · subst hz
    rw [if_pos (by norm_num)]
    dsimp only
    omega
  rw [if_neg (by omega : ¬((s : Int) = 0))]
  by_cases h32 : 32 ≤ s
  · rw [if_pos (by omega : (32 : Int) ≤ (s : Int))]
    dsimp only
    rw [ht]
    have hsplit : (2 : ℕ) ^ s = 2 ^ 32 * 2 ^ (s - 32) := by
      rw [← pow_add]; congr 1; omega
    rw [hsplit, ← Nat.div_div_eq_div_mul]
    have hx : (H * 2 ^ 32 + L) / 2 ^ 32 = H := by omega
    rw [hx]
    omega
  · rw [if_neg (by omega : ¬((32 : Int) ≤ (s : Int)))]
    dsimp only
    rw [ht]
    have hQP : (2 : ℕ) ^ (32 - s) * 2 ^ s = 2 ^ 32 := by
      rw [← pow_add]; congr 1; omega
    have h2s : (2 : ℕ) ^ (32 - s) ∣ 2 ^ 32 := pow_dvd_pow 2 (by omega)
    have hdvd : (2 : ℕ) ^ (32 - s) ∣ H * 2 ^ (32 - s) % 2 ^ 32 :=
      (Nat.dvd_mod_iff h2s).mpr ⟨H, mul_comm _ _⟩
    have hlt : L / 2 ^ s < 2 ^ (32 - s) := by
      apply Nat.div_lt_of_lt_mul
      rw [mul_comm, hQP]; exact hu1
    rw [Nat.lor_comm, lor_disjoint hdvd hlt]
    have hRHS : (H * 2 ^ 32 + L) / 2 ^ s = H * 2 ^ (32 - s) + L / 2 ^ s := by
      have hH : H * 2 ^ 32 = H * 2 ^ (32 - s) * 2 ^ s := by
        rw [← hQP]; ring
      rw [hH, Nat.add_comm, Nat.add_mul_div_right _ _ (Nat.two_pow_pos s), Nat.add_comm]
    rw [hRHS]
    have hdiv : H * 2 ^ (32 - s) / 2 ^ 32 = H / 2 ^ s := by
      rw [← hQP, ← Nat.div_div_eq_div_mul,
          Nat.mul_div_cancel _ (Nat.two_pow_pos (32 - s))]
    rw [← hdiv]
    set X := H * 2 ^ (32 - s) with hX
    clear_value X
    omega

end UINT64

/-! ### Claim C6: shift invariants of the unsigned variant -/

/-- C6: shifting an unsigned 64-bit value left by zero is the
identity, shifting left by 64 yields zero, and for every shift amount
s < 64 a left shift by s followed by a right shift by s recovers the
low 64 - s bits of the operand (the value reduced modulo 2^(64-s)). -/
theorem claim6_shift_invariants (a : UINT64) (ha : a.Wf) :
    UINT64.shl a 0 = a ∧ UINT64.shl a 64 = ⟨0, 0⟩ ∧
    ∀ s : Nat, s < 64 →
      UINT64.toNat (UINT64.shr (UINT64.shl a (s : Int)) (s : Int))
        = UINT64.toNat a % 2 ^ (64 - s) := by
  refine ⟨?_, ?_, ?_⟩
  · unfold UINT64.shl
    rw [if_neg (by norm_num), if_pos rfl]
  · unfold UINT64.shl
    rw [if_pos (by norm_num)]
  · intro s hs
    rw [UINT64.shr_toNat (UINT64.wf_shl ha _) s hs, UINT64.shl_toNat ha s hs,
        show (2 : ℕ) ^ 64 = 2 ^ (64 - s) * 2 ^ s by rw [← pow_add]; congr 1; omega,
        Nat.mul_mod_mul_right, Nat.mul_div_cancel _ (Nat.two_pow_pos s)]

theorem claim6_shift_invariants_witness :
    (⟨2882400001, 39321⟩ : UINT64).Wf ∧ 7 < 64 ∧
    (UINT64.shl ⟨2882400001, 39321⟩ 0 = ⟨2882400001, 39321⟩ ∧
     UINT64.shl ⟨2882400001, 39321⟩ 64 = ⟨0, 0⟩) ∧
    UINT64.toNat (UINT64.shr (UINT64.shl ⟨2882400001, 39321⟩ ((7 : Nat) : Int))
        ((7 : Nat) : Int))
      = UINT64.toNat ⟨2882400001, 39321⟩ % 2 ^ (64 - 7) := by
  have h := claim6_shift_invariants ⟨2882400001, 39321⟩ (by decide)
  exact ⟨by decide, by decide, ⟨h.1, h.2.1⟩, h.2.2 7 (by decide)⟩

namespace UINT64

theorem dvd_add_le {P x N : Nat} (hdvd : P ∣ x) (hN : P ∣ N) (hx : x < N) :
    x + P ≤ N := by
  obtain ⟨a, rfl⟩ := hdvd
  obtain ⟨b, rfl⟩ := hN
  have hab : a < b := Nat.lt_of_mul_lt_mul_left hx
  calc P * a + P = P * (a + 1) := by ring
  _ ≤ P * b := Nat.mul_le_mul_left _ (Nat.succ_le_of_lt hab)

theorem div_mod_char {D B q r : Nat} (hB : 0 < B) (hD : D = B * q + r) (hr : r < B) :
    D / B = q ∧ D % B = r := by
  subst hD
  refine ⟨?_, ?_⟩
  · rw [Nat.mul_add_div hB, Nat.div_eq_of_lt hr, Nat.add_zero]
  · rw [Nat.mul_add_mod, Nat.mod_eq_of_lt hr]

theorem high_bit {A i : Nat} (h32 : 32 ≤ i) : A / 2 ^ 32 / 2 ^ (i - 32) = A / 2 ^ i := by
  rw [Nat.div_div_eq_div_mul, ← pow_add]
  congr 2
  omega

theorem low_bit (A i : Nat) (hi : i < 32) : A % 2 ^ 32 / 2 ^ i % 2 = A / 2 ^ i % 2 := by
  have e1 : (2 : ℕ) ^ 32 * (A / 2 ^ 32) = 2 ^ i * (2 ^ (32 - i) * (A / 2 ^ 32)) := by
    rw [← mul_assoc, ← pow_add]
    congr 2
    omega
  have h1 : A / 2 ^ i = 2 ^ (32 - i) * (A / 2 ^ 32) + A % 2 ^ 32 / 2 ^ i := by
    conv_lhs => rw [← Nat.div_add_mod A (2 ^ 32)]
    rw [e1, Nat.mul_add_div (Nat.two_pow_pos i)]
  have e2 : (2 : ℕ) ^ (32 - i) * (A / 2 ^ 32) = 2 * (2 ^ (31 - i) * (A / 2 ^ 32)) := by
    rw [← mul_assoc]
    congr 1
    rw [show (2 : ℕ) * 2 ^ (31 - i) = 2 ^ (31 - i) * 2 by ring, ← pow_succ]
    congr 1
    omega
  rw [h1, e2, Nat.add_comm, Nat.add_mul_mod_self_left]

theorem shift1_spec {R1 : Nat} (h : 2 * R1 + 1 < 2 ^ 64) :
    (⟨R1 % 2 ^ 32 * 2 % 2 ^ 32 ||| 1, R1 / 2 ^ 32 * 2 % 2 ^ 32 ||| R1 % 2 ^ 32 / 2 ^ 31⟩ : UINT64)
      = ofNat64 (2 * R1 + 1) := by
  have h2 : (2 : ℕ) ∣ 2 ^ 32 := ⟨2 ^ 31, by norm_num⟩
  have hd1 : (2 : ℕ) ^ 1 ∣ R1 % 2 ^ 32 * 2 % 2 ^ 32 := by
    rw [pow_one]
    exact (Nat.dvd_mod_iff h2).mpr (Dvd.intro_left _ rfl)
  have hd2 : (2 : ℕ) ^ 1 ∣ R1 / 2 ^ 32 * 2 % 2 ^ 32 := by
    rw [pow_one]
    exact (Nat.dvd_mod_iff h2).mpr (Dvd.intro_left _ rfl)
  have hb31 : R1 % 2 ^ 32 / 2 ^ 31 < 2 ^ 1 := by
    rw [pow_one]
    exact Nat.div_lt_of_lt_mul (by have := Nat.mod_lt R1 (y := 2 ^ 32) (by norm_num); omega)
  rw [lor_disjoint hd1 (by norm_num), lor_disjoint hd2 hb31,
      ofNat64_eq_of_lt h]
  congr 1 <;> omega

theorem shift0_spec {R1 : Nat} (h : 2 * R1 < 2 ^ 64) :
    (⟨R1 % 2 ^ 32 * 2 % 2 ^ 32, R1 / 2 ^ 32 * 2 % 2 ^ 32 ||| R1 % 2 ^ 32 / 2 ^ 31⟩ : UINT64)
      = ofNat64 (2 * R1) := by
  have h2 : (2 : ℕ) ∣ 2 ^ 32 := ⟨2 ^ 31, by norm_num⟩
  have hd2 : (2 : ℕ) ^ 1 ∣ R1 / 2 ^ 32 * 2 % 2 ^ 32 := by
    rw [pow_one]
    exact (Nat.dvd_mod_iff h2).mpr (Dvd.intro_left _ rfl)
  have hb31 : R1 % 2 ^ 32 / 2 ^ 31 < 2 ^ 1 := by
    rw [pow_one]
    exact Nat.div_lt_of_lt_mul (by have := Nat.mod_lt R1 (y := 2 ^ 32) (by norm_num); omega)
  rw [lor_disjoint hd2 hb31, ofNat64_eq_of_lt h]
  congr 1 <;> omega

theorem setBitLow_spec {x i : Nat} (hx : x < 2 ^ 64) (hi : i < 32) (hdvd : 2 ^ (i + 1) ∣ x) :
    (⟨x % 2 ^ 32 ||| 2 ^ i, x / 2 ^ 32⟩ : UINT64) = ofNat64 (x + 2 ^ i) := by
  have hd32 : (2 : ℕ) ^ (i + 1) ∣ 2 ^ 32 := pow_dvd_pow 2 (by omega)
  have hd64 : (2 : ℕ) ^ (i + 1) ∣ 2 ^ 64 := pow_dvd_pow 2 (by omega)
  have hdm : (2 : ℕ) ^ (i + 1) ∣ x % 2 ^ 32 := (Nat.dvd_mod_iff hd32).mpr hdvd
  have hik : (2 : ℕ) ^ i < 2 ^ (i + 1) := by
    have := Nat.two_pow_pos i
    rw [pow_succ]
    omega
  have hsum : x % 2 ^ 32 + 2 ^ (i + 1) ≤ 2 ^ 32 :=
    dvd_add_le hdm hd32 (Nat.mod_lt _ (by norm_num))
  have htot : x + 2 ^ (i + 1) ≤ 2 ^ 64 := dvd_add_le hdvd hd64 hx
  rw [lor_disjoint hdm hik, ofNat64_eq_of_lt (by omega)]
  congr 1 <;> omega

theorem setBitHigh_spec {x i : Nat} (hx : x < 2 ^ 64) (h32 : 32 ≤ i) (hi : i < 64)
    (hdvd : 2 ^ (i + 1) ∣ x) :
    (⟨x % 2 ^ 32, x / 2 ^ 32 ||| 2 ^ (i - 32)⟩ : UINT64) = ofNat64 (x + 2 ^ i) := by
  have hd64 : (2 : ℕ) ^ (i + 1) ∣ 2 ^ 64 := pow_dvd_pow 2 (by omega)
  have htot : x + 2 ^ (i + 1) ≤ 2 ^ 64 := dvd_add_le hdvd hd64 hx
  have hik : (2 : ℕ) ^ i < 2 ^ (i + 1) := by
    have := Nat.two_pow_pos i
    rw [pow_succ]
    omega
  have hii : (2 : ℕ) ^ i = 2 ^ 32 * 2 ^ (i - 32) := by
    rw [← pow_add]
    congr 1
    omega
  have hdq : (2 : ℕ) ^ (i - 32 + 1) ∣ x / 2 ^ 32 := by
    obtain ⟨m, rfl⟩ := hdvd
    have hsp : (2 : ℕ) ^ (i + 1) = 2 ^ (i - 32 + 1) * 2 ^ 32 := by
      rw [← pow_add]
      congr 1
      omega
    rw [hsp, mul_assoc, mul_comm (2 ^ 32) m, ← mul_assoc,
        Nat.mul_div_cancel _ (Nat.two_pow_pos 32)]
    exact Dvd.intro m rfl
  have hblt : (2 : ℕ) ^ (i - 32) < 2 ^ (i - 32 + 1) := by
    have := Nat.two_pow_pos (i - 32)
    rw [pow_succ]
    omega
  rw [lor_disjoint hdq hblt, ofNat64_eq_of_lt (by omega)]
  have hmod : (x + 2 ^ i) % 2 ^ 32 = x % 2 ^ 32 := by
    rw [hii, Nat.add_mul_mod_self_left]
  have hdiv : (x + 2 ^ i) / 2 ^ 32 = x / 2 ^ 32 + 2 ^ (i - 32) := by
    rw [hii, show (2 : ℕ) ^ 32 * 2 ^ (i - 32) = 2 ^ (i - 32) * 2 ^ 32 by ring,
        Nat.add_mul_div_right _ _ (Nat.two_pow_pos 32)]
  rw [hmod, hdiv]

end UINT64

namespace UINT64

theorem divStep_spec {A B : Nat} (hA : A < 2 ^ 64) (hB0 : 0 < B) (hB : B < 2 ^ 64)
    {i : Nat} (hi : i < 64) :
    divStep (ofNat64 A) (ofNat64 B) i (ofNat64 (A / 2 ^ (i + 1) / B * 2 ^ (i + 1)))
        (ofNat64 (A / 2 ^ (i + 1) % B))
      = (ofNat64 (A / 2 ^ i / B * 2 ^ i), ofNat64 (A / 2 ^ i % B)) := by
  have hD1 : A / 2 ^ (i + 1) = A / 2 ^ i / 2 := by
    rw [Nat.div_div_eq_div_mul, ← pow_succ]
  have hsplit : A / 2 ^ i = 2 * (A / 2 ^ (i + 1)) + A / 2 ^ i % 2 := by
    rw [hD1]; omega
  have hdm1 := Nat.div_add_mod (A / 2 ^ (i + 1)) B
  have f8 : A / 2 ^ i
      = B * (2 * (A / 2 ^ (i + 1) / B)) + (2 * (A / 2 ^ (i + 1) % B) + A / 2 ^ i % 2) := by
    calc A / 2 ^ i = 2 * (A / 2 ^ (i + 1)) + A / 2 ^ i % 2 := hsplit
    _ = 2 * (B * (A / 2 ^ (i + 1) / B) + A / 2 ^ (i + 1) % B) + A / 2 ^ i % 2 := by
        rw [hdm1]
    _ = _ := by ring
  have fR1B : A / 2 ^ (i + 1) % B < B := Nat.mod_lt _ hB0
  have fRle : A / 2 ^ (i + 1) % B ≤ A / 2 ^ (i + 1) := Nat.mod_le _ _
  have fDle : A / 2 ^ i ≤ A := Nat.div_le_self _ _
  have fbit : A / 2 ^ i % 2 < 2 := Nat.mod_lt _ (by norm_num)
  have fr2le : 2 * (A / 2 ^ (i + 1) % B) + A / 2 ^ i % 2 ≤ A / 2 ^ i := by
    rw [hsplit]
    omega
  have fR1lt : A / 2 ^ (i + 1) % B < 2 ^ 64 := by omega
  have fQlt : A / 2 ^ (i + 1) / B * 2 ^ (i + 1) < 2 ^ 64 := by
    have h1 : A / 2 ^ (i + 1) / B * 2 ^ (i + 1) ≤ A / 2 ^ (i + 1) * 2 ^ (i + 1) :=
      Nat.mul_le_mul_right _ (Nat.div_le_self _ _)
    have h2 : A / 2 ^ (i + 1) * 2 ^ (i + 1) ≤ A := Nat.div_mul_le_self _ _
    omega
  have fdvdQ : 2 ^ (i + 1) ∣ A / 2 ^ (i + 1) / B * 2 ^ (i + 1) := Dvd.intro_left _ rfl
  have hprod : B * (2 * (A / 2 ^ (i + 1) / B) + 1)
      = B * (2 * (A / 2 ^ (i + 1) / B)) + B := by ring
  rw [ofNat64_eq_of_lt hA, ofNat64_eq_of_lt fQlt, ofNat64_eq_of_lt fR1lt]
  simp only [divStep]
  by_cases h32 : 32 ≤ i
  · simp only [if_pos h32]
    rw [high_bit h32]
    by_cases hbit : A / 2 ^ i % 2 = 1
    · rw [if_pos hbit, shift1_spec (by omega)]
      have hgei := ge_iff (wf_ofNat64 (2 * (A / 2 ^ (i + 1) % B) + 1)) (wf_ofNat64 B)
      rw [toNat_ofNat64 hB, toNat_ofNat64 (by omega)] at hgei
      by_cases hc : B ≤ 2 * (A / 2 ^ (i + 1) % B) + 1
      · rw [if_pos (hgei.mpr hc), sub_ofNat64 (by omega) hB hc,
            setBitHigh_spec fQlt h32 hi fdvdQ]
        have hDeq : A / 2 ^ i = B * (2 * (A / 2 ^ (i + 1) / B) + 1)
            + (2 * (A / 2 ^ (i + 1) % B) + 1 - B) := by omega
        obtain ⟨hq, hr⟩ := div_mod_char hB0 hDeq (by omega)
        rw [hq, hr]
        congr 2
        rw [pow_succ]
        ring
      · rw [if_neg (fun hh => hc (hgei.mp hh))]
        have hDeq : A / 2 ^ i = B * (2 * (A / 2 ^ (i + 1) / B))
            + (2 * (A / 2 ^ (i + 1) % B) + 1) := by omega
        obtain ⟨hq, hr⟩ := div_mod_char hB0 hDeq (by omega)
        rw [hq, hr, ← ofNat64_eq_of_lt fQlt]
        congr 2
        rw [pow_succ]
        ring
    · rw [if_neg hbit, shift0_spec (by omega)]
      have hbit0 : A / 2 ^ i % 2 = 0 := by omega
      have hgei := ge_iff (wf_ofNat64 (2 * (A / 2 ^ (i + 1) % B))) (wf_ofNat64 B)
      rw [toNat_ofNat64 hB, toNat_ofNat64 (by omega)] at hgei
      by_cases hc : B ≤ 2 * (A / 2 ^ (i + 1) % B)
      · rw [if_pos (hgei.mpr hc), sub_ofNat64 (by omega) hB hc,
            setBitHigh_spec fQlt h32 hi fdvdQ]
        have hDeq : A / 2 ^ i = B * (2 * (A / 2 ^ (i + 1) / B) + 1)
            + (2 * (A / 2 ^ (i + 1) % B) - B) := by omega
        obtain ⟨hq, hr⟩ := div_mod_char hB0 hDeq (by omega)
        rw [hq, hr]
        congr 2
        rw [pow_succ]
        ring
      · rw [if_neg (fun hh => hc (hgei.mp hh))]
        have hDeq : A / 2 ^ i = B * (2 * (A / 2 ^ (i + 1) / B))
            + (2 * (A / 2 ^ (i + 1) % B)) := by omega
        obtain ⟨hq, hr⟩ := div_mod_char hB0 hDeq (by omega)
        rw [hq, hr, ← ofNat64_eq_of_lt fQlt]
        congr 2
        rw [pow_succ]
        ring
  · simp only [if_neg h32]
    rw [low_bit A i (by omega)]
    have hi32 : i < 32 := by omega
    by_cases hbit : A / 2 ^ i % 2 = 1
    · rw [if_pos hbit, shift1_spec (by omega)]
      have hgei := ge_iff (wf_ofNat64 (2 * (A / 2 ^ (i + 1) % B) + 1)) (wf_ofNat64 B)
      rw [toNat_ofNat64 hB, toNat_ofNat64 (by omega)] at hgei
      by_cases hc : B ≤ 2 * (A / 2 ^ (i + 1) % B) + 1
      · rw [if_pos (hgei.mpr hc), sub_ofNat64 (by omega) hB hc,
            setBitLow_spec fQlt hi32 fdvdQ]
        have hDeq : A / 2 ^ i = B * (2 * (A / 2 ^ (i + 1) / B) + 1)
            + (2 * (A / 2 ^ (i + 1) % B) + 1 - B) := by omega
        obtain ⟨hq, hr⟩ := div_mod_char hB0 hDeq (by omega)
        rw [hq, hr]
        congr 2
        rw [pow_succ]
        ring
      · rw [if_neg (fun hh => hc (hgei.mp hh))]
        have hDeq : A / 2 ^ i = B * (2 * (A / 2 ^ (i + 1) / B))
            + (2 * (A / 2 ^ (i + 1) % B) + 1) := by omega
        obtain ⟨hq, hr⟩ := div_mod_char hB0 hDeq (by omega)
        rw [hq, hr, ← ofNat64_eq_of_lt fQlt]
        congr 2
        rw [pow_succ]
        ring
    · rw [if_neg hbit, shift0_spec (by omega)]
      have hbit0 : A / 2 ^ i % 2 = 0 := by omega
      have hgei := ge_iff (wf_ofNat64 (2 * (A / 2 ^ (i + 1) % B))) (wf_ofNat64 B)
      rw [toNat_ofNat64 hB, toNat_ofNat64 (by omega)] at hgei
      by_cases hc : B ≤ 2 * (A / 2 ^ (i + 1) % B)
      · rw [if_pos (hgei.mpr hc), sub_ofNat64 (by omega) hB hc,
            setBitLow_spec fQlt hi32 fdvdQ]
        have hDeq : A / 2 ^ i = B * (2 * (A / 2 ^ (i + 1) / B) + 1)
            + (2 * (A / 2 ^ (i + 1) % B) - B) := by omega
        obtain ⟨hq, hr⟩ := div_mod_char hB0 hDeq (by omega)
        rw [hq, hr]
        congr 2
        rw [pow_succ]
        ring
      · rw [if_neg (fun hh => hc (hgei.mp hh))]
        have hDeq : A / 2 ^ i = B * (2 * (A / 2 ^ (i + 1) / B))
            + (2 * (A / 2 ^ (i + 1) % B)) := by omega
        obtain ⟨hq, hr⟩ := div_mod_char hB0 hDeq (by omega)
        rw [hq, hr, ← ofNat64_eq_of_lt fQlt]
        congr 2
        rw [pow_succ]
        ring

end UINT64

namespace UINT64

theorem divLoop_spec {A B : Nat} (hA : A < 2 ^ 64) (hB0 : 0 < B) (hB : B < 2 ^ 64) :
    ∀ n, n ≤ 64 →
      divLoop (ofNat64 A) (ofNat64 B) n
          (ofNat64 (A / 2 ^ n / B * 2 ^ n), ofNat64 (A / 2 ^ n % B))
        = (ofNat64 (A / B), ofNat64 (A % B))
  | 0, _ => by norm_num [divLoop]
  | n + 1, h => by
    rw [divLoop]
    dsimp only
    rw [divStep_spec hA hB0 hB (by omega)]
    exact divLoop_spec hA hB0 hB n (by omega)

theorem div_eq {a b : UINT64} (ha : a.Wf) (hb : b.Wf) (hb0 : toNat b ≠ 0) :
    div a b = ofNat64 (toNat a / toNat b) := by
  have hbne : ¬(b.high = 0 ∧ b.low = 0) := by
    intro h
    apply hb0
    unfold toNat
    omega
  have hA := toNat_lt ha
  have hB := toNat_lt hb
  have hB0 : 0 < toNat b := Nat.pos_of_ne_zero hb0
  have hspec := divLoop_spec hA hB0 hB 64 (le_refl 64)
  rw [show toNat a / 2 ^ 64 = 0 from Nat.div_eq_of_lt hA] at hspec
  simp only [Nat.zero_div, Nat.zero_mod, zero_mul] at hspec
  unfold div
  rw [if_neg hbne]
  conv_lhs => rw [← ofNat64_toNat ha, ← ofNat64_toNat hb]
  rw [show (⟨0, 0⟩ : UINT64) = ofNat64 0 from rfl, hspec]

theorem modStep_eq (a b : UINT64) (i : Nat) (q r : UINT64) :
    modStep a b i r = (divStep a b i q r).2 := by
  unfold modStep divStep
  dsimp only
  split_ifs <;> rfl

theorem modLoop_eq (a b : UINT64) : ∀ (n : Nat) (q r : UINT64),
    modLoop a b n r = (divLoop a b n (q, r)).2
  | 0, q, r => rfl
  | n + 1, q, r => by
    rw [modLoop, divLoop]
    dsimp only
    rw [modLoop_eq a b n (divStep a b n q r).1 (modStep a b n r),
        modStep_eq a b n q r, Prod.mk.eta]

theorem mod_eq {a b : UINT64} (ha : a.Wf) (hb : b.Wf) (hb0 : toNat b ≠ 0) :
    mod a b = ofNat64 (toNat a % toNat b) := by
  have hbne : ¬(b.high = 0 ∧ b.low = 0) := by
    intro h
    apply hb0
    unfold toNat
    omega
  have hA := toNat_lt ha
  have hB := toNat_lt hb
  have hB0 : 0 < toNat b := Nat.pos_of_ne_zero hb0
  have hspec := divLoop_spec hA hB0 hB 64 (le_refl 64)
  rw [show toNat a / 2 ^ 64 = 0 from Nat.div_eq_of_lt hA] at hspec
  simp only [Nat.zero_div, Nat.zero_mod, zero_mul] at hspec
  unfold mod
  rw [if_neg hbne]
  conv_lhs => rw [← ofNat64_toNat ha, ← ofNat64_toNat hb]
  rw [modLoop_eq (ofNat64 (toNat a)) (ofNat64 (toNat b)) 64 (ofNat64 0) ⟨0, 0⟩,
      show (⟨0, 0⟩ : UINT64) = ofNat64 0 from rfl, hspec]

end UINT64

/-! ### Claim C1: unsigned division and modulo match native semantics -/

/-- C1: for every pair of well-formed 64-bit unsigned values with a
nonzero divisor, the restoring binary long division of UINT64
operator/ and operator% returns exactly the native unsigned quotient
and remainder. -/
theorem claim1_udiv_umod_correct (a b : UINT64) (ha : a.Wf) (hb : b.Wf)
    (hb0 : UINT64.toNat b ≠ 0) :
    UINT64.toNat (UINT64.div a b) = UINT64.toNat a / UINT64.toNat b ∧
    UINT64.toNat (UINT64.mod a b) = UINT64.toNat a % UINT64.toNat b := by
  constructor
  · rw [UINT64.div_eq ha hb hb0,
        UINT64.toNat_ofNat64 (lt_of_le_of_lt (Nat.div_le_self _ _) (UINT64.toNat_lt ha))]
  · rw [UINT64.mod_eq ha hb hb0,
        UINT64.toNat_ofNat64 (lt_of_le_of_lt (Nat.mod_le _ _) (UINT64.toNat_lt ha))]

theorem claim1_udiv_umod_correct_witness :
    (⟨3735928559, 3405691582⟩ : UINT64).Wf ∧ (⟨97, 0⟩ : UINT64).Wf ∧
    UINT64.toNat (⟨97, 0⟩ : UINT64) ≠ 0 ∧
    (UINT64.toNat (UINT64.div ⟨3735928559, 3405691582⟩ ⟨97, 0⟩)
        = UINT64.toNat (⟨3735928559, 3405691582⟩ : UINT64) / UINT64.toNat (⟨97, 0⟩ : UINT64) ∧
     UINT64.toNat (UINT64.mod ⟨3735928559, 3405691582⟩ ⟨97, 0⟩)
        = UINT64.toNat (⟨3735928559, 3405691582⟩ : UINT64) % UINT64.toNat (⟨97, 0⟩ : UINT64)) :=
  ⟨by decide, by decide, by decide,
   claim1_udiv_umod_correct ⟨3735928559, 3405691582⟩ ⟨97, 0⟩ (by decide) (by decide) (by decide)⟩

namespace UINT64

theorem wf_mul (u v : UINT64) : (mul u v).Wf := by
  unfold mul Wf
  dsimp only
  constructor <;> exact Nat.or_lt_two_pow (by omega) (by omega)

end UINT64

namespace INT64

theorem toNat64_lt {s : INT64} (h : s.Wf) : s.toNat64 < 2 ^ 64 := by
  obtain ⟨h1, h2⟩ := h
  unfold toNat64
  omega

theorem toInt_def {s : INT64} (hs : s.Wf) :
    s.toInt = (s.toNat64 : Int) - (if 2 ^ 31 ≤ s.high then (2 ^ 64 : Int) else 0) := by
  obtain ⟨h1, h2⟩ := hs
  unfold toInt toInt32 toNat64
  split_ifs <;> (push_cast; omega)

theorem wf_neg {s : INT64} : (neg s).Wf := by
  unfold neg sub Wf
  split_ifs <;> exact ⟨Nat.mod_lt _ (by norm_num), Nat.mod_lt _ (by norm_num)⟩

theorem neg_toNat64 {s : INT64} (hs : s.Wf) :
    (neg s).toNat64 = (2 ^ 64 - s.toNat64) % 2 ^ 64 := by
  obtain ⟨h1, h2⟩ := hs
  unfold neg sub toNat64
  dsimp only
  split_ifs <;> omega

theorem wf_add {s t : INT64} : (add s t).Wf := by
  unfold add Wf
  exact ⟨Nat.mod_lt _ (by norm_num), Nat.mod_lt _ (by norm_num)⟩

theorem add_toNat64 {s t : INT64} (hs : s.Wf) (ht : t.Wf) :
    (add s t).toNat64 = (s.toNat64 + t.toNat64) % 2 ^ 64 := by
  obtain ⟨h1, h2⟩ := hs
  obtain ⟨h3, h4⟩ := ht
  unfold add toNat64
  dsimp only
  split_ifs <;> omega

theorem wf_sub {s t : INT64} : (sub s t).Wf := by
  unfold sub Wf
  exact ⟨Nat.mod_lt _ (by norm_num), Nat.mod_lt _ (by norm_num)⟩

theorem sub_toNat64 {s t : INT64} (hs : s.Wf) (ht : t.Wf) :
    (sub s t).toNat64 = (s.toNat64 + 2 ^ 64 - t.toNat64) % 2 ^ 64 := by
  obtain ⟨h1, h2⟩ := hs
  obtain ⟨h3, h4⟩ := ht
  unfold sub toNat64
  dsimp only
  split_ifs <;> omega

theorem wf_smul {s t : INT64} : (mul s t).Wf :=
  UINT64.wf_mul s.toUINT64 t.toUINT64

theorem mul_toNat64 {s t : INT64} (hs : s.Wf) (ht : t.Wf) :
    (mul s t).toNat64 = s.toNat64 * t.toNat64 % 2 ^ 64 := by
  have e : (mul s t).toNat64 = UINT64.toNat (UINT64.mul s.toUINT64 t.toUINT64) := rfl
  rw [e, mul_toNat ⟨hs.1, hs.2⟩ ⟨ht.1, ht.2⟩]
  rfl

theorem abs_spec {s : INT64} (hs : s.Wf) :
    (if s.isNeg then neg s else s).toNat64 = s.toInt.natAbs ∧
      (if s.isNeg then neg s else s).Wf := by
  have hd := toInt_def hs
  have hlt := toNat64_lt hs
  have he : s.toNat64 = s.high * 2 ^ 32 + s.low := rfl
  by_cases h : s.isNeg
  · have h' : 2 ^ 31 ≤ s.high := h
    rw [if_pos h'] at hd
    rw [if_pos h]
    refine ⟨?_, wf_neg⟩
    rw [neg_toNat64 hs]
    omega
  · have h' : ¬ 2 ^ 31 ≤ s.high := h
    rw [if_neg h'] at hd
    rw [if_neg h]
    exact ⟨by omega, hs⟩

end INT64

namespace INT64

theorem abs_neg_case {s : INT64} (hs : s.Wf) (h : s.isNeg) :
    (neg s).toNat64 = s.toInt.natAbs := by
  have hsp := abs_spec hs
  rw [if_pos h] at hsp
  exact hsp.1

theorem abs_pos_case {s : INT64} (hs : s.Wf) (h : ¬ s.isNeg) :
    s.toNat64 = s.toInt.natAbs := by
  have hsp := abs_spec hs
  rw [if_neg h] at hsp
  exact hsp.1

theorem sdiv_spec {a b : INT64} (ha : a.Wf) (hb : b.Wf)
    (hb0 : ¬(b.high = 0 ∧ b.low = 0)) :
    ((INT64.div a b).toNat64 : Int) = a.toInt.tdiv b.toInt % 2 ^ 64 ∧
      (INT64.div a b).Wf := by
  have hda := toInt_def ha
  have hdb := toInt_def hb
  have hea : a.toNat64 = a.high * 2 ^ 32 + a.low := rfl
  have heb : b.toNat64 = b.high * 2 ^ 32 + b.low := rfl
  have hAlt := toNat64_lt ha
  have hBlt := toNat64_lt hb
  obtain ⟨ha1, ha2⟩ := ha
  obtain ⟨hb1, hb2⟩ := hb
  unfold INT64.div
  rw [if_neg hb0]
  dsimp only
  by_cases han : a.isNeg
  · by_cases hbn : b.isNeg
    · simp only [if_pos han, if_pos hbn, decide_eq_true han, decide_eq_true hbn]
      have han' : 2 ^ 31 ≤ a.high := han
      have hbn' : 2 ^ 31 ≤ b.high := hbn
      rw [if_pos han'] at hda
      rw [if_pos hbn'] at hdb
      have htna : UINT64.toNat (neg a).toUINT64 = a.toInt.natAbs :=
        abs_neg_case ⟨ha1, ha2⟩ han
      have htnb : UINT64.toNat (neg b).toUINT64 = b.toInt.natAbs :=
        abs_neg_case ⟨hb1, hb2⟩ hbn
      have hNb0 : b.toInt.natAbs ≠ 0 := by omega
      have hq := UINT64.div_eq (a := (neg a).toUINT64) (b := (neg b).toUINT64)
        wf_neg wf_neg (by rw [htnb]; exact hNb0)
      rw [htna, htnb] at hq
      set Na := a.toInt.natAbs with hNadef
      set Nb := b.toInt.natAbs with hNbdef
      have hNa63 : Na ≤ 2 ^ 63 := by omega
      have hQ63 : Na / Nb ≤ 2 ^ 63 := le_trans (Nat.div_le_self _ _) hNa63
      rw [hq, if_neg (by decide)]
      dsimp only [UINT64.ofNat64]
      have hta : a.toInt = -(Na : Int) := by omega
      have htb : b.toInt = -(Nb : Int) := by omega
      rw [hta, htb, Int.neg_tdiv_neg, ← Int.ofNat_tdiv]
      have he2 : INT64.toNat64 ⟨Na / Nb % 2 ^ 32, Na / Nb / 2 ^ 32 % 2 ^ 32⟩
          = Na / Nb / 2 ^ 32 % 2 ^ 32 * 2 ^ 32 + Na / Nb % 2 ^ 32 := rfl
      refine ⟨?_, ?_⟩
      · rw [he2]
        omega
      · exact ⟨Nat.mod_lt _ (by norm_num), Nat.mod_lt _ (by norm_num)⟩
    · simp only [if_pos han, if_neg hbn, decide_eq_true han, decide_eq_false hbn]
      have han' : 2 ^ 31 ≤ a.high := han
      have hbn' : ¬ 2 ^ 31 ≤ b.high := hbn
      rw [if_pos han'] at hda
      rw [if_neg hbn'] at hdb
      have htna : UINT64.toNat (neg a).toUINT64 = a.toInt.natAbs :=
        abs_neg_case ⟨ha1, ha2⟩ han
      have htnb : UINT64.toNat b.toUINT64 = b.toInt.natAbs :=
        abs_pos_case ⟨hb1, hb2⟩ hbn
      have hNb0 : b.toInt.natAbs ≠ 0 := by omega
      have hq := UINT64.div_eq (a := (neg a).toUINT64) (b := b.toUINT64)
        wf_neg ⟨hb1, hb2⟩ (by rw [htnb]; exact hNb0)
      rw [htna, htnb] at hq
      set Na := a.toInt.natAbs with hNadef
      set Nb := b.toInt.natAbs with hNbdef
      have hNa63 : Na ≤ 2 ^ 63 := by omega
      have hQ63 : Na / Nb ≤ 2 ^ 63 := le_trans (Nat.div_le_self _ _) hNa63
      rw [hq, if_pos (by decide)]
      dsimp only [UINT64.ofNat64]
      have hta : a.toInt = -(Na : Int) := by omega
      have htb : b.toInt = (Nb : Int) := by omega
      rw [hta, htb, Int.neg_tdiv, ← Int.ofNat_tdiv]
      have hwq : (⟨Na / Nb % 2 ^ 32, Na / Nb / 2 ^ 32 % 2 ^ 32⟩ : INT64).Wf :=
        ⟨Nat.mod_lt _ (by norm_num), Nat.mod_lt _ (by norm_num)⟩
      have he2 : INT64.toNat64 ⟨Na / Nb % 2 ^ 32, Na / Nb / 2 ^ 32 % 2 ^ 32⟩
          = Na / Nb / 2 ^ 32 % 2 ^ 32 * 2 ^ 32 + Na / Nb % 2 ^ 32 := rfl
      refine ⟨?_, wf_neg⟩
      rw [neg_toNat64 hwq, he2]
      omega
  · by_cases hbn : b.isNeg
    · simp only [if_neg han, if_pos hbn, decide_eq_false han, decide_eq_true hbn]
      have han' : ¬ 2 ^ 31 ≤ a.high := han
      have hbn' : 2 ^ 31 ≤ b.high := hbn
      rw [if_neg han'] at hda
      rw [if_pos hbn'] at hdb
      have htna : UINT64.toNat a.toUINT64 = a.toInt.natAbs :=
        abs_pos_case ⟨ha1, ha2⟩ han
      have htnb : UINT64.toNat (neg b).toUINT64 = b.toInt.natAbs :=
        abs_neg_case ⟨hb1, hb2⟩ hbn
      have hNb0 : b.toInt.natAbs ≠ 0 := by omega
      have hq := UINT64.div_eq (a := a.toUINT64) (b := (neg b).toUINT64)
        ⟨ha1, ha2⟩ wf_neg (by rw [htnb]; exact hNb0)
      rw [htna, htnb] at hq
      set Na := a.toInt.natAbs with hNadef
      set Nb := b.toInt.natAbs with hNbdef
      have hNa63 : Na ≤ 2 ^ 63 := by omega
      have hQ63 : Na / Nb ≤ 2 ^ 63 := le_trans (Nat.div_le_self _ _) hNa63
      rw [hq, if_pos (by decide)]
      dsimp only [UINT64.ofNat64]
      have hta : a.toInt = (Na : Int) := by omega
      have htb : b.toInt = -(Nb : Int) := by omega
      rw [hta, htb, Int.tdiv_neg, ← Int.ofNat_tdiv]
      have hwq : (⟨Na / Nb % 2 ^ 32, Na / Nb / 2 ^ 32 % 2 ^ 32⟩ : INT64).Wf :=
        ⟨Nat.mod_lt _ (by norm_num), Nat.mod_lt _ (by norm_num)⟩
      have he2 : INT64.toNat64 ⟨Na / Nb % 2 ^ 32, Na / Nb / 2 ^ 32 % 2 ^ 32⟩
          = Na / Nb / 2 ^ 32 % 2 ^ 32 * 2 ^ 32 + Na / Nb % 2 ^ 32 := rfl
      refine ⟨?_, wf_neg⟩
      rw [neg_toNat64 hwq, he2]
      omega
    · simp only [if_neg han, if_neg hbn, decide_eq_false han, decide_eq_false hbn]
      have han' : ¬ 2 ^ 31 ≤ a.high := han
      have hbn' : ¬ 2 ^ 31 ≤ b.high := hbn
      rw [if_neg han'] at hda
      rw [if_neg hbn'] at hdb
      have htna : UINT64.toNat a.toUINT64 = a.toInt.natAbs :=
        abs_pos_case ⟨ha1, ha2⟩ han
      have htnb : UINT64.toNat b.toUINT64 = b.toInt.natAbs :=
        abs_pos_case ⟨hb1, hb2⟩ hbn
      have hNb0 : b.toInt.natAbs ≠ 0 := by omega
      have hq := UINT64.div_eq (a := a.toUINT64) (b := b.toUINT64)
        ⟨ha1, ha2⟩ ⟨hb1, hb2⟩ (by rw [htnb]; exact hNb0)
      rw [htna, htnb] at hq
      set Na := a.toInt.natAbs with hNadef
      set Nb := b.toInt.natAbs with hNbdef
      have hNa63 : Na ≤ 2 ^ 63 := by omega
      have hQ63 : Na / Nb ≤ 2 ^ 63 := le_trans (Nat.div_le_self _ _) hNa63
      rw [hq, if_neg (by decide)]
      dsimp only [UINT64.ofNat64]
      have hta : a.toInt = (Na : Int) := by omega
      have htb : b.toInt = (Nb : Int) := by omega
      rw [hta, htb, ← Int.ofNat_tdiv]
      have he2 : INT64.toNat64 ⟨Na / Nb % 2 ^ 32, Na / Nb / 2 ^ 32 % 2 ^ 32⟩
          = Na / Nb / 2 ^ 32 % 2 ^ 32 * 2 ^ 32 + Na / Nb % 2 ^ 32 := rfl
      refine ⟨?_, ?_⟩
      · rw [he2]
        omega
      · exact ⟨Nat.mod_lt _ (by norm_num), Nat.mod_lt _ (by norm_num)⟩

end INT64

/-! ### Claim C4: signed division and the division identity -/

/-- C4: for every pair of well-formed signed 64-bit values with a
nonzero divisor, INT64 operator/ (absolute values through the unsigned
core, sign restored afterward) produces exactly the bit pattern of the
truncating-toward-zero two of-complement quotient, and the identity
(a / b) * b + (a % b) == a holds of the 64-bit patterns. -/
theorem claim4_sdiv_correct (a b : INT64) (ha : a.Wf) (hb : b.Wf)
    (hb0 : ¬(b.high = 0 ∧ b.low = 0)) :
    ((INT64.div a b).toNat64 : Int) = a.toInt.tdiv b.toInt % 2 ^ 64 ∧
    INT64.toNat64 (INT64.add (INT64.mul (INT64.div a b) b) (INT64.mod a b))
      = INT64.toNat64 a := by
  obtain ⟨h1, h2⟩ := INT64.sdiv_spec ha hb hb0
  refine ⟨h1, ?_⟩
  unfold INT64.mod
  rw [if_neg hb0, INT64.add_toNat64 INT64.wf_smul INT64.wf_sub,
      INT64.sub_toNat64 ha INT64.wf_smul]
  have hX := INT64.toNat64_lt (INT64.wf_smul (s := INT64.div a b) (t := b))
  have hA := INT64.toNat64_lt ha
  omega

theorem claim4_sdiv_correct_witness :
    (⟨4294967289, 4294967295⟩ : INT64).Wf ∧ (⟨2, 0⟩ : INT64).Wf ∧
    ¬((⟨2, 0⟩ : INT64).high = 0 ∧ (⟨2, 0⟩ : INT64).low = 0) ∧
    (((INT64.div ⟨4294967289, 4294967295⟩ ⟨2, 0⟩).toNat64 : Int)
        = (⟨4294967289, 4294967295⟩ : INT64).toInt.tdiv (⟨2, 0⟩ : INT64).toInt % 2 ^ 64 ∧
     INT64.toNat64 (INT64.add
        (INT64.mul (INT64.div ⟨4294967289, 4294967295⟩ ⟨2, 0⟩) ⟨2, 0⟩)
        (INT64.mod ⟨4294967289, 4294967295⟩ ⟨2, 0⟩))
        = INT64.toNat64 (⟨4294967289, 4294967295⟩ : INT64)) :=
  ⟨by decide, by decide, by decide,
   claim4_sdiv_correct ⟨4294967289, 4294967295⟩ ⟨2, 0⟩ (by decide) (by decide) (by decide)⟩

/-! ### memcpy from allocator.cc

Memory is modelled as a byte map from addresses to values; a pointer
is an address, with 0 as the null pointer. -/

/-- Store one byte at address ad. -/
def writeByte (mem : Nat → Nat) (ad v : Nat) : Nat → Nat :=
  fun x => if x = ad then v else mem x

/-- The body of the memcpy loop: i counts iterations already done, n
the iterations still to run; iteration i performs d[i] = s[i]. -/
def copyLoop (dest src : Nat) : (Nat → Nat) → Nat → Nat → (Nat → Nat)
  | mem, _, 0 => mem
  | mem, i, n + 1 =>
      copyLoop dest src (writeByte mem (dest + i) (mem (src + i))) (i + 1) n

/-- memcpy from allocator.cc: a null dest, a null src or a zero count
short-circuits with no write and returns dest; otherwise count bytes
are copied forward one at a time, and dest is returned. -/
def memcpy (mem : Nat → Nat) (dest src count : Nat) : (Nat → Nat) × Nat :=
  if dest = 0 ∨ src = 0 ∨ count = 0 then (mem, dest)
  else (copyLoop dest src mem 0 count, dest)

/-- Addresses outside the window written by the remaining iterations
are untouched. -/
theorem copyLoop_frame (dest src : Nat) :
    ∀ (n : Nat) (mem : Nat → Nat) (i x : Nat),
      x < dest + i ∨ dest + i + n ≤ x →
      copyLoop dest src mem i n x = mem x
  | 0, mem, i, x, _ => rfl
  | n + 1, mem, i, x, hx => by
    rw [copyLoop]
    rw [copyLoop_frame dest src n _ (i + 1) x (by omega)]
    unfold writeByte
    rw [if_neg (by omega)]

/-- When the source window still to be read cannot be clobbered by any
write (the forward copy is safe), every copied byte comes from the
original memory. -/
theorem copyLoop_copies (dest src : Nat) :
    ∀ (n : Nat) (mem : Nat → Nat) (i : Nat),
      (dest ≤ src ∨ src + (i + n) ≤ dest) →
      ∀ j, i ≤ j → j < i + n →
        copyLoop dest src mem i n (dest + j) = mem (src + j)
  | 0, mem, i, _, j, h1, h2 => by omega
  | n + 1, mem, i, hsafe, j, h1, h2 => by
    rw [copyLoop]
    rcases Nat.eq_or_lt_of_le h1 with rfl | hlt
    · rw [copyLoop_frame dest src n _ (i + 1) (dest + i) (by omega)]
      unfold writeByte
      rw [if_pos rfl]
    · rw [copyLoop_copies dest src n _ (i + 1) (by omega) j (by omega) (by omega)]
      unfold writeByte
      rw [if_neg (by omega)]

/-! ### Claim C9: memcpy -/

/-- C9 fails as stated when the regions overlap with
src < dest < src + count: with bytes 5 at address 1 and 7 at address 2,
copying two bytes from src = 1 to dest = 2 stores 5 at address 3,
not the original source byte 7. -/
theorem claim9_counterexample :
    ¬ ((memcpy (fun a => if a = 1 then 5 else if a = 2 then 7 else 0) 2 1 2).1 (2 + 1)
       = (fun a : Nat => if a = 1 then 5 else if a = 2 then 7 else 0) (1 + 1)) := by
  decide

/-- C9 (amended): the null and zero-count guards return dest with no
byte written, the return value is always dest, and, provided the
forward byte-by-byte copy is safe (dest at or before src, or the
regions disjoint with dest above the source window), each of the first
count bytes of dest equals the corresponding original byte of src. -/
theorem claim9_memcpy_correct (mem : Nat → Nat) (dest src count : Nat) :
    ((dest = 0 ∨ src = 0 ∨ count = 0) → memcpy mem dest src count = (mem, dest)) ∧
    (memcpy mem dest src count).2 = dest ∧
    (dest ≠ 0 → src ≠ 0 → (dest ≤ src ∨ src + count ≤ dest) →
      ∀ j, j < count → (memcpy mem dest src count).1 (dest + j) = mem (src + j)) := by
  refine ⟨?_, ?_, ?_⟩
  · intro h
    unfold memcpy
    rw [if_pos h]
  · unfold memcpy
    split_ifs <;> rfl
  · intro hd hs hsafe j hj
    unfold memcpy
    rw [if_neg (by omega)]
    exact copyLoop_copies dest src count mem 0 (by omega) j (by omega) (by omega)

theorem claim9_memcpy_correct_witness :
    ((10 : Nat) ≠ 0 ∧ (1 : Nat) ≠ 0 ∧ ((10 : Nat) ≤ 1 ∨ 1 + 2 ≤ 10) ∧ (1 : Nat) < 2) ∧
    (memcpy (fun a => a * 3) 10 1 2).1 (10 + 1) = (fun a : Nat => a * 3) (1 + 1) :=
  ⟨⟨by decide, by decide, by decide, by decide⟩,
   (claim9_memcpy_correct (fun a => a * 3) 10 1 2).2.2 (by decide) (by decide)
     (by decide) 1 (by decide)⟩

/-! ### STACK_ARRAY_STORAGE from platform.h

The packed word storage is modelled generically: WB is the word size
in bytes (sizeof USIZE, 4 or 8 depending on the target), EB the
element size in bytes (sizeof TChar), and the word array is a map from
word index to word value. The C expressions (USIZE)0xFF << sh, ~mask
and (USIZE)v << sh are rendered as 255 * 2^sh, the exact complement
2^(8 WB) - 1 - mask, and v * 2^sh; none of the shifted values exceeds
the word width because sh ≤ 8 WB - 8 and v < 256. -/

/-- SetByte: clear the byte at byteIndex inside its word and or the
new value in. -/
def setByteW (WB : Nat) (words : Nat → Nat) (byteIndex v : Nat) : Nat → Nat :=
  fun j =>
    if j = byteIndex / WB then
      (words (byteIndex / WB) &&& (2 ^ (8 * WB) - 1 - 255 * 2 ^ (byteIndex % WB * 8)))
        ||| v * 2 ^ (byteIndex % WB * 8)
    else words j

/-- GetByte: extract the byte at byteIndex from its word. -/
def getByteW (WB : Nat) (words : Nat → Nat) (byteIndex : Nat) : Nat :=
  words (byteIndex / WB) / 2 ^ (byteIndex % WB * 8) % 256

/-- The inner loop of the consteval constructor: store bytes
b, ..., b+k-1 of element value v at element index i. -/
def storeBytes (WB EB i v : Nat) : (Nat → Nat) → Nat → Nat → (Nat → Nat)
  | words, _, 0 => words
  | words, b, k + 1 =>
      storeBytes WB EB i v
        (setByteW WB words (i * EB + b) (v / 2 ^ (8 * b) % 256)) (b + 1) k

/-- The outer loop of the consteval constructor: store elements
i, i+1, ..., i+k-1 of the source array. -/
def buildStorage (WB EB : Nat) (src : Nat → Nat) : (Nat → Nat) → Nat → Nat → (Nat → Nat)
  | words, _, 0 => words
  | words, i, k + 1 =>
      buildStorage WB EB src (storeBytes WB EB i (src i) words 0 EB) (i + 1) k

/-- The accumulation loop of operator[] : or the bytes back together,
least significant byte first. -/
def readBytes (WB : Nat) (words : Nat → Nat) (base : Nat) : Nat → Nat → Nat → Nat
  | v, _, 0 => v
  | v, b, k + 1 =>
      readBytes WB words base (v ||| getByteW WB words (base + b) * 2 ^ (8 * b)) (b + 1) k

/-- operator[] : decode the element at the given index. -/
def readElem (WB EB : Nat) (words : Nat → Nat) (index : Nat) : Nat :=
  readBytes WB words (index * EB) 0 0 EB

/-- A byte value has no bits at position 8 or above. -/
theorem testBit_byte_high {v k : Nat} (hv : v < 256) (hk : 8 ≤ k) :
    Nat.testBit v k = false := by
  apply Nat.testBit_lt_two_pow
  calc v < 256 := hv
  _ = 2 ^ 8 := by norm_num
  _ ≤ 2 ^ k := Nat.pow_le_pow_right (by norm_num) hk

/-- The bits of a word after SetByte: positions inside the replaced
byte read from the new value, other positions below the word width are
unchanged, and positions at or above the word width are clear. -/
theorem testBit_setWord {w v sh W : Nat} (hshW : sh + 8 ≤ W) (hv : v < 256) (j : Nat) :
    Nat.testBit ((w &&& (2 ^ W - 1 - 255 * 2 ^ sh)) ||| v * 2 ^ sh) j
      = if sh ≤ j ∧ j < sh + 8 then Nat.testBit v (j - sh)
        else (Nat.testBit w j && decide (j < W)) := by
  have h256 : (2 : ℕ) ^ (sh + 8) = 256 * 2 ^ sh := by
    rw [pow_add]
    omega
  have hle : (2 : ℕ) ^ (sh + 8) ≤ 2 ^ W := Nat.pow_le_pow_right (by norm_num) hshW
  have hsh1 : (1 : ℕ) ≤ 2 ^ sh := Nat.one_le_two_pow
  have e1 : 2 ^ (sh + 8) * (2 ^ (W - (sh + 8)) - 1) = 2 ^ W - 2 ^ (sh + 8) := by
    rw [Nat.mul_sub_one, ← pow_add]
    congr 2
    omega
  have mask_eq : 2 ^ W - 1 - 255 * 2 ^ sh
      = 2 ^ (sh + 8) * (2 ^ (W - (sh + 8)) - 1) + (2 ^ sh - 1) := by
    rw [e1]
    omega
  have hb : (2 : ℕ) ^ sh - 1 < 2 ^ (sh + 8) := by omega
  rw [Nat.testBit_or, Nat.testBit_and, mask_eq,
      Nat.testBit_mul_pow_two_add _ hb j, mul_comm v (2 ^ sh), Nat.testBit_mul_pow_two]
  by_cases hA : sh ≤ j ∧ j < sh + 8
  · rw [if_pos hA, if_pos (show j < sh + 8 by omega), Nat.testBit_two_pow_sub_one]
    have h1 : ¬ j < sh := by omega
    simp [h1, hA.1]
  · rw [if_neg hA]
    by_cases h1 : j < sh
    · rw [if_pos (by omega : j < sh + 8), Nat.testBit_two_pow_sub_one]
      have hge : ¬ j ≥ sh := by omega
      have hjW : j < W := by omega
      simp [h1, hge, hjW]
    · have h8 : sh + 8 ≤ j := by omega
      rw [if_neg (by omega : ¬ j < sh + 8), Nat.testBit_two_pow_sub_one]
      have hvb : Nat.testBit v (j - sh) = false := testBit_byte_high hv (by omega)
      by_cases hW : j < W
      · simp [hvb, hW, show j - (sh + 8) < W - (sh + 8) by omega]
      · simp [hvb, hW, show ¬ (j - (sh + 8) < W - (sh + 8)) by omega]

/-- The bits of an extracted byte. -/
theorem testBit_getByte (x m k : Nat) :
    Nat.testBit (x / 2 ^ m % 256) k = (decide (k < 8) && Nat.testBit x (m + k)) := by
  rw [show (256 : ℕ) = 2 ^ 8 from rfl, Nat.testBit_mod_two_pow,
      ← Nat.shiftRight_eq_div_pow, Nat.testBit_shiftRight]

/-- Reading back the byte just stored returns it unchanged. -/
theorem getByte_setByte_same {WB : Nat} (hWB : 0 < WB) (w : Nat → Nat) {bi v : Nat}
    (hv : v < 256) : getByteW WB (setByteW WB w bi v) bi = v := by
  unfold getByteW setByteW
  rw [if_pos rfl]
  have hm : bi % WB < WB := Nat.mod_lt _ hWB
  have hshW : bi % WB * 8 + 8 ≤ 8 * WB := by omega
  apply Nat.eq_of_testBit_eq
  intro k
  rw [testBit_getByte, testBit_setWord hshW hv]
  by_cases hk : k < 8
  · rw [if_pos (by omega : bi % WB * 8 ≤ bi % WB * 8 + k ∧ bi % WB * 8 + k < bi % WB * 8 + 8)]
    simp [hk, Nat.add_sub_cancel_left]
  · have hvb : Nat.testBit v k = false := testBit_byte_high hv (by omega)
    simp [hk, hvb]

/-- Reading any other byte is unaffected by a SetByte. -/
theorem getByte_setByte_other {WB : Nat} (hWB : 0 < WB) (w : Nat → Nat) {bi bj v : Nat}
    (hv : v < 256) (hne : bj ≠ bi) :
    getByteW WB (setByteW WB w bi v) bj = getByteW WB w bj := by
  unfold getByteW setByteW
  by_cases hw : bj / WB = bi / WB
  · rw [if_pos hw, hw]
    have hmne : bj % WB ≠ bi % WB := by
      intro hmm
      have hd1 := Nat.div_add_mod bj WB
      have hd2 := Nat.div_add_mod bi WB
      rw [hw, hmm] at hd1
      exact hne (by omega)
    have hmj : bj % WB < WB := Nat.mod_lt _ hWB
    have hmi : bi % WB < WB := Nat.mod_lt _ hWB
    have hshW : bi % WB * 8 + 8 ≤ 8 * WB := by omega
    apply Nat.eq_of_testBit_eq
    intro k
    rw [testBit_getByte, testBit_getByte, testBit_setWord hshW hv]
    by_cases hk : k < 8
    · rw [if_neg (by omega : ¬ (bi % WB * 8 ≤ bj % WB * 8 + k ∧
          bj % WB * 8 + k < bi % WB * 8 + 8))]
      have hjW : bj % WB * 8 + k < 8 * WB := by omega
      simp [hk, hjW]
    · simp [hk]
  · rw [if_neg hw]

theorem storeBytes_frame {WB : Nat} (hWB : 0 < WB) (EB i v : Nat) :
    ∀ (k : Nat) (words : Nat → Nat) (b x : Nat),
      x < i * EB + b ∨ i * EB + b + k ≤ x →
      getByteW WB (storeBytes WB EB i v words b k) x = getByteW WB words x
  | 0, _, _, _, _ => rfl
  | k + 1, words, b, x, hx => by
    rw [storeBytes]
    rw [storeBytes_frame hWB EB i v k _ (b + 1) x (by omega)]
    exact getByte_setByte_other hWB words (Nat.mod_lt _ (by norm_num)) (by omega)

theorem storeBytes_write {WB : Nat} (hWB : 0 < WB) (EB i v : Nat) :
    ∀ (k : Nat) (words : Nat → Nat) (b j : Nat), b ≤ j → j < b + k →
      getByteW WB (storeBytes WB EB i v words b k) (i * EB + j) = v / 2 ^ (8 * j) % 256
  | 0, _, _, _, h1, h2 => by omega
  | k + 1, words, b, j, h1, h2 => by
    rw [storeBytes]
    rcases Nat.eq_or_lt_of_le h1 with rfl | hlt
    · rw [storeBytes_frame hWB EB i v k _ (b + 1) (i * EB + b) (by omega)]
      exact getByte_setByte_same hWB words (Nat.mod_lt _ (by norm_num))
    · exact storeBytes_write hWB EB i v k _ (b + 1) j (by omega) (by omega)

theorem buildStorage_frame {WB : Nat} (hWB : 0 < WB) (EB : Nat) (src : Nat → Nat) :
    ∀ (k : Nat) (words : Nat → Nat) (i x : Nat),
      x < i * EB ∨ (i + k) * EB ≤ x →
      getByteW WB (buildStorage WB EB src words i k) x = getByteW WB words x
  | 0, _, _, _, _ => rfl
  | k + 1, words, i, x, hx => by
    rw [buildStorage]
    have e1 : (i + 1) * EB = i * EB + EB := by ring
    have e2 : (i + (k + 1)) * EB = (i + 1 + k) * EB := by ring
    have e3 : (i + 1) * EB ≤ (i + 1 + k) * EB := Nat.mul_le_mul_right _ (by omega)
    rw [buildStorage_frame hWB EB src k _ (i + 1) x (by omega)]
    exact storeBytes_frame hWB EB i (src i) EB words 0 x (by omega)

theorem buildStorage_write {WB : Nat} (hWB : 0 < WB) {EB : Nat} (hEB : 0 < EB)
    (src : Nat → Nat) :
    ∀ (k : Nat) (words : Nat → Nat) (i t b : Nat), i ≤ t → t < i + k → b < EB →
      getByteW WB (buildStorage WB EB src words i k) (t * EB + b)
        = src t / 2 ^ (8 * b) % 256
  | 0, _, _, _, _, h1, h2, _ => by omega
  | k + 1, words, i, t, b, h1, h2, hb => by
    rw [buildStorage]
    rcases Nat.eq_or_lt_of_le h1 with rfl | hlt
    · have e1 : (i + 1) * EB = i * EB + EB := by ring
      rw [buildStorage_frame hWB EB src k _ (i + 1) (i * EB + b) (by omega)]
      exact storeBytes_write hWB EB i (src i) EB words 0 b (by omega) (by omega)
    · exact buildStorage_write hWB hEB src k _ (i + 1) t b (by omega) (by omega) hb

theorem readBytes_spec {WB : Nat} (words : Nat → Nat) (base V : Nat) :
    ∀ (k b : Nat),
      (∀ j, b ≤ j → j < b + k → getByteW WB words (base + j) = V / 2 ^ (8 * j) % 256) →
      readBytes WB words base (V % 2 ^ (8 * b)) b k = V % 2 ^ (8 * (b + k))
  | 0, b, _ => by simp [readBytes]
  | k + 1, b, h => by
    rw [readBytes, h b (le_refl b) (by omega)]
    have hacc : V % 2 ^ (8 * b) ||| V / 2 ^ (8 * b) % 256 * 2 ^ (8 * b)
        = V % 2 ^ (8 * (b + 1)) := by
      rw [Nat.lor_comm, mul_comm (V / 2 ^ (8 * b) % 256) (2 ^ (8 * b)),
          lor_disjoint (n := 8 * b) ⟨_, rfl⟩ (Nat.mod_lt _ (Nat.two_pow_pos _)),
          show 8 * (b + 1) = 8 * b + 8 from by ring, pow_add, Nat.mod_mul,
          show (2 : ℕ) ^ 8 = 256 from by norm_num]
      exact Nat.add_comm _ _
    rw [hacc, show 8 * (b + (k + 1)) = 8 * ((b + 1) + k) from by ring]
    exact readBytes_spec words base V k (b + 1) (fun j hj1 hj2 => h j (by omega) (by omega))

/-! ### Claim C7: compile-time packed storage round-trip -/

/-- C7: for every source array of N elements of width 1, 2 or 4 bytes
(on a platform with 4- or 8-byte words), and every index i < N,
decoding index i of the storage built byte-by-byte by the consteval
constructor reproduces the original element exactly. -/
theorem claim7_storage_roundtrip (WB EB N : Nat) (src : Nat → Nat)
    (hWB : WB = 4 ∨ WB = 8) (hEB : EB = 1 ∨ EB = 2 ∨ EB = 4)
    (hsrc : ∀ j, j < N → src j < 2 ^ (8 * EB)) (i : Nat) (hi : i < N) :
    readElem WB EB (buildStorage WB EB src (fun _ => 0) 0 N) i = src i := by
  have hWB0 : 0 < WB := by omega
  have hEB0 : 0 < EB := by omega
  unfold readElem
  have hbytes : ∀ j, 0 ≤ j → j < 0 + EB →
      getByteW WB (buildStorage WB EB src (fun _ => 0) 0 N) (i * EB + j)
        = src i / 2 ^ (8 * j) % 256 :=
    fun j _ hj =>
      buildStorage_write hWB0 hEB0 src N (fun _ => 0) 0 i j (by omega) (by omega)
        (by omega)
  have hres := readBytes_spec (buildStorage WB EB src (fun _ => 0) 0 N) (i * EB)
    (src i) EB 0 hbytes
  rw [show (8 : ℕ) * 0 = 0 from rfl, pow_zero, Nat.mod_one] at hres
  rw [hres, show (0 : ℕ) + EB = EB from by omega, Nat.mod_eq_of_lt (hsrc i hi)]

theorem claim7_storage_roundtrip_witness :
    ((8 : Nat) = 4 ∨ (8 : Nat) = 8) ∧ ((2 : Nat) = 1 ∨ (2 : Nat) = 2 ∨ (2 : Nat) = 4) ∧
    (∀ j, j < 3 → (fun t : Nat => if t = 0 then 513 else if t = 1 then 65535 else 7) j
        < 2 ^ (8 * 2)) ∧ (1 : Nat) < 3 ∧
    readElem 8 2 (buildStorage 8 2
        (fun t : Nat => if t = 0 then 513 else if t = 1 then 65535 else 7) (fun _ => 0) 0 3) 1
      = (fun t : Nat => if t = 0 then 513 else if t = 1 then 65535 else 7) 1 :=
  ⟨by decide, by decide, by decide, by decide,
   claim7_storage_roundtrip 8 2 3 _ (by decide) (by decide) (by decide) 1 (by decide)⟩

/-! ### DOUBLE (WideFloat) conversion to integer -/

/-- Modelled from the spec: the WideFloat implementation (double.h) is
not under src, only its tests are, so DOUBLE is modelled from the
specification: it wraps a 64-bit IEEE-754 binary64 bit pattern held as
a UINT64, with sign 1 bit, exponent 11 bits and mantissa 52 bits. -/
structure DOUBLE where
  bits : UINT64
deriving DecidableEq

namespace DOUBLE

/-- The 64-bit pattern as a natural number. -/
def pattern (d : DOUBLE) : Nat := UINT64.toNat d.bits

/-- The sign bit (bit 63). -/
def signBit (d : DOUBLE) : Nat := pattern d / 2 ^ 63

/-- The biased exponent (bits 62..52). -/
def expBits (d : DOUBLE) : Nat := pattern d / 2 ^ 52 % 2 ^ 11

/-- The stored mantissa (bits 51..0). -/
def mant (d : DOUBLE) : Nat := pattern d % 2 ^ 52

/-- A pattern is finite when its exponent field is not all ones. -/
def isFinite (d : DOUBLE) : Prop := expBits d < 2047

instance (d : DOUBLE) : Decidable d.isFinite := by unfold isFinite; infer_instance

/-- The significand including the implicit leading one of normal
numbers; subnormals (exponent field zero) have no implicit bit. -/
def Msig (d : DOUBLE) : Nat :=
  if expBits d = 0 then mant d else 2 ^ 52 + mant d

/-- The magnitude scaled so that the represented magnitude is
scaledMag / 2^1075: a finite value is Msig * 2^(E-1075) with effective
exponent E = max expBits 1 (bias 1023 plus mantissa width 52). -/
def scaledMag (d : DOUBLE) : Nat := Msig d * 2 ^ (max (expBits d) 1)

/-- The rational value represented by a finite pattern. -/
def val (d : DOUBLE) : ℚ :=
  (if signBit d = 1 then -1 else 1) * (scaledMag d : ℚ) / ((2 ^ 1075 : ℕ) : ℚ)

/-- Modelled from the spec: conversion of a DOUBLE to an integer
truncates toward zero, computed here by integer division of the scaled
magnitude with the sign reattached. -/
def toINT (d : DOUBLE) : Int :=
  (if signBit d = 1 then -1 else 1) * ((scaledMag d / 2 ^ 1075 : Nat) : Int)

end DOUBLE

set_option maxRecDepth 8000 in
theorem floor_natCast_div (a b : ℕ) (hb : 0 < b) :
    ⌊((a : ℚ) / (b : ℚ))⌋ = ((a / b : ℕ) : ℤ) := by
  have hbq : (0 : ℚ) < (b : ℚ) := by exact_mod_cast hb
  rw [Int.floor_eq_iff]
  constructor
  · rw [le_div_iff₀ hbq]
    exact_mod_cast Nat.div_mul_le_self a b
  · rw [div_lt_iff₀ hbq]
    have h1 := Nat.div_add_mod a b
    have h2 := Nat.mod_lt a hb
    have h3 : a < (a / b + 1) * b := by
      have e : (a / b + 1) * b = b * (a / b) + b := by ring
      omega
    push_cast
    exact_mod_cast h3

/-! ### Claim C8: DOUBLE to integer truncates toward zero -/

set_option maxRecDepth 8000 in
/-- C8: converting a finite DOUBLE to an integer truncates toward
zero: the conversion equals the floor of the value for nonnegative
values and the ceiling for negative ones (the fractional part is
discarded), and on the binary64 encodings of 1.9, 100.5, 0.5 and -1.0
it returns 1, 100, 0 and -1. -/
theorem claim8_double_to_int_truncates :
    (∀ d : DOUBLE, d.isFinite →
      d.toINT = if 0 ≤ d.val then ⌊d.val⌋ else ⌈d.val⌉) ∧
    DOUBLE.toINT ⟨⟨1717986918, 1073636966⟩⟩ = 1 ∧
    DOUBLE.toINT ⟨⟨0, 1079582720⟩⟩ = 100 ∧
    DOUBLE.toINT ⟨⟨0, 1071644672⟩⟩ = 0 ∧
    DOUBLE.toINT ⟨⟨0, 3220176896⟩⟩ = -1 := by
  refine ⟨?_, by decide, by decide, by decide, by decide⟩
  intro d _
  unfold DOUBLE.toINT DOUBLE.val
  have hbq : (0 : ℚ) < ((2 ^ 1075 : ℕ) : ℚ) :=
    Nat.cast_pos.mpr (Nat.two_pow_pos 1075)
  by_cases hs : d.signBit = 1
  · rw [if_pos hs, if_pos hs]
    by_cases hz : d.scaledMag = 0
    · rw [hz]
      norm_num
    · have hpos : (0 : ℚ) < (d.scaledMag : ℚ) :=
        Nat.cast_pos.mpr (Nat.pos_of_ne_zero hz)
      have hvneg : (-1 : ℚ) * (d.scaledMag : ℚ) / ((2 ^ 1075 : ℕ) : ℚ) < 0 := by
        have h1 : (0 : ℚ) < (d.scaledMag : ℚ) / ((2 ^ 1075 : ℕ) : ℚ) := by positivity
        have h2 : (-1 : ℚ) * (d.scaledMag : ℚ) / ((2 ^ 1075 : ℕ) : ℚ)
            = -((d.scaledMag : ℚ) / ((2 ^ 1075 : ℕ) : ℚ)) := by ring
        rw [h2]
        linarith
      rw [if_neg (not_le.mpr hvneg),
          show (-1 : ℚ) * (d.scaledMag : ℚ) / ((2 ^ 1075 : ℕ) : ℚ)
            = -((d.scaledMag : ℚ) / ((2 ^ 1075 : ℕ) : ℚ)) from by ring,
          Int.ceil_neg, floor_natCast_div _ _ (Nat.two_pow_pos 1075)]
      push_cast
      ring
  · rw [if_neg hs, if_neg hs]
    have hvpos : (0 : ℚ) ≤ (1 : ℚ) * (d.scaledMag : ℚ) / ((2 ^ 1075 : ℕ) : ℚ) := by
      positivity
    rw [if_pos hvpos,
        show (1 : ℚ) * (d.scaledMag : ℚ) / ((2 ^ 1075 : ℕ) : ℚ)
          = (d.scaledMag : ℚ) / ((2 ^ 1075 : ℕ) : ℚ) from by ring,
        floor_natCast_div _ _ (Nat.two_pow_pos 1075)]
    ring

set_option maxRecDepth 8000 in
theorem claim8_double_to_int_truncates_witness :
    DOUBLE.toINT ⟨⟨1717986918, 1073636966⟩⟩ =
      if 0 ≤ DOUBLE.val ⟨⟨1717986918, 1073636966⟩⟩
      then ⌊DOUBLE.val ⟨⟨1717986918, 1073636966⟩⟩⌋
      else ⌈DOUBLE.val ⟨⟨1717986918, 1073636966⟩⟩⌉ :=
  claim8_double_to_int_truncates.1 ⟨⟨1717986918, 1073636966⟩⟩ (by decide)
